import Mathlib

/-!
Verification of the custom-explorer tree data provider (src/extension.ts).

Shallow embedding conventions:

* `MyNode` mirrors the TypeScript interface.  The code treats a missing
  `children` field and an empty `children` array identically in every
  operation (`if (node.children)` guards around iteration, `a || []`
  before `push`), so both are modelled as the empty list.
* Object pointers are modelled by values; pointer dereference of a node
  held in an index or a drag payload is modelled by looking the node's
  `id` up in the forest (exact for forests with unique ids, which the
  relevant theorems assume explicitly).
* `generateId` (`Math.random().toString(36)...` in the code) is modelled
  as an injective counter-indexed id supply, threaded through the
  operations; claims about id uniqueness are settled for this idealised
  fresh generator.
* `label.localeCompare` is modelled as lexicographic comparison of the
  code points; `Array.prototype.sort` (stable since ES2019) is modelled
  by a stable insertion sort, which agrees with every stable sort for a
  consistent comparator.
* The two `Map`s (`pathIndex`, `uriToNodeMap`) are modelled as functions
  `String → Option MyNode` built by last-write-wins insertion in the
  exact traversal order of `rebuildIndex`.
* `vscode.workspace.getConfiguration(...)` is an explicit `excludes`
  parameter; `fs.readdirSync` is a `FSEntry` tree parameter in listing
  order; `workspaceState.update` and tree-refresh events are represented
  by the data that would be written and the returned change flag.
-/

set_option maxHeartbeats 1000000

inductive NodeType where
  | group
  | file
deriving DecidableEq, Repr

inductive CState where
  | noCollapse
  | collapsed
  | expanded
deriving DecidableEq, Repr

/-- The `MyNode` interface of src/extension.ts (lines 6-14): id, label,
type tag, children, optional on-disk path, presentation state and the
cached logical tree path maintained by `rebuildIndex`. -/
inductive MyNode : Type where
  | mk (id : String) (label : String) (ty : NodeType) (children : List MyNode)
       (filePath : Option String) (collapsibleState : Option CState)
       (cachedTreePath : Option String) : MyNode

def MyNode.id : MyNode → String
  | .mk i _ _ _ _ _ _ => i

def MyNode.label : MyNode → String
  | .mk _ l _ _ _ _ _ => l

def MyNode.ty : MyNode → NodeType
  | .mk _ _ t _ _ _ _ => t

def MyNode.children : MyNode → List MyNode
  | .mk _ _ _ cs _ _ _ => cs

def MyNode.filePath : MyNode → Option String
  | .mk _ _ _ _ fp _ _ => fp

def MyNode.collapsibleState : MyNode → Option CState
  | .mk _ _ _ _ _ st _ => st

def MyNode.cachedTreePath : MyNode → Option String
  | .mk _ _ _ _ _ _ ctp => ctp

mutual
def nodesBeq : MyNode → MyNode → Bool
  | .mk i1 l1 t1 cs1 fp1 st1 ctp1, .mk i2 l2 t2 cs2 fp2 st2 ctp2 =>
    i1 = i2 && l1 = l2 && t1 = t2 && nodeListBeq cs1 cs2 && fp1 = fp2 && st1 = st2
      && ctp1 = ctp2

def nodeListBeq : List MyNode → List MyNode → Bool
  | [], [] => true
  | a :: as, b :: bs => nodesBeq a b && nodeListBeq as bs
  | _, _ => false
end

mutual
theorem nodesBeq_iff : ∀ a b : MyNode, nodesBeq a b = true ↔ a = b
  | .mk i1 l1 t1 cs1 fp1 st1 ctp1, .mk i2 l2 t2 cs2 fp2 st2 ctp2 => by
    rw [nodesBeq]
    simp only [Bool.and_eq_true, decide_eq_true_eq]
    rw [nodeListBeq_iff cs1 cs2]
    constructor
    · rintro ⟨⟨⟨⟨⟨⟨h1, h2⟩, h3⟩, h4⟩, h5⟩, h6⟩, h7⟩
      subst h1; subst h2; subst h3; subst h4; subst h5; subst h6; subst h7; rfl
    · intro h; cases h; simp

theorem nodeListBeq_iff : ∀ as bs : List MyNode, nodeListBeq as bs = true ↔ as = bs
  | [], [] => by simp [nodeListBeq]
  | [], _ :: _ => by simp [nodeListBeq]
  | _ :: _, [] => by simp [nodeListBeq]
  | a :: as, b :: bs => by
    rw [nodeListBeq]
    simp only [Bool.and_eq_true]
    rw [nodesBeq_iff a b, nodeListBeq_iff as bs]
    constructor
    · rintro ⟨h1, h2⟩; subst h1; subst h2; rfl
    · intro h; cases h; exact ⟨rfl, rfl⟩
end

instance : DecidableEq MyNode := fun a b =>
  decidable_of_iff (nodesBeq a b = true) (nodesBeq_iff a b)

/-! ### String helpers (models of `path.basename`, `String.prototype`
methods and `localeCompare`) -/

/-- Model of node's `path.basename` for POSIX-style paths: the last
non-empty `/`-separated component. -/
def basename (p : String) : String :=
  String.mk (((p.toList.reverse.dropWhile (· = '/')).takeWhile (· ≠ '/')).reverse)

/-- Model of `String.prototype.startsWith`. -/
def strStartsWith (s pre : String) : Bool :=
  pre.toList.isPrefixOf s.toList

/-- Model of `String.prototype.endsWith`. -/
def strEndsWith (s suf : String) : Bool :=
  suf.toList.isSuffixOf s.toList

/-- Model of `s.substring(n)` (drop the first `n` characters). -/
def strDropN (s : String) (n : Nat) : String :=
  String.mk (s.toList.drop n)

/-- Model of `s.length` (count of characters). -/
def strLen (s : String) : Nat := s.toList.length

def charListLe : List Char → List Char → Bool
  | [], _ => true
  | _ :: _, [] => false
  | a :: as, b :: bs =>
    if a.toNat < b.toNat then true
    else if b.toNat < a.toNat then false
    else charListLe as bs

def strLeB (a b : String) : Bool := charListLe a.toList b.toList

/-- Model of `a.localeCompare(b)`: the locale order is modelled as the
lexicographic order on code points (only the sign of the result is ever
used by the code). -/
def localeCompare (a b : String) : Int :=
  if strLeB a b then (if strLeB b a then 0 else -1) else 1

/-! ### The sort engine (`sortNodesRecursive`, lines 748-760) -/

/-- The comparator passed to `nodes.sort` in `sortNodesRecursive`:
groups sort before files, ties break by `localeCompare` on labels. -/
def nodeCompare (a b : MyNode) : Int :=
  if a.ty = .group ∧ b.ty ≠ .group then -1
  else if a.ty ≠ .group ∧ b.ty = .group then 1
  else localeCompare a.label b.label

def nodeLe (a b : MyNode) : Bool := nodeCompare a b ≤ 0

/-- Stable insertion used to model `Array.prototype.sort` (stable per
the ECMAScript spec; all stable sorts of a consistent comparator agree). -/
def insertLe (le : MyNode → MyNode → Bool) (x : MyNode) : List MyNode → List MyNode
  | [] => [x]
  | y :: ys => if le x y then x :: y :: ys else y :: insertLe le x ys

def insSort (le : MyNode → MyNode → Bool) : List MyNode → List MyNode
  | [] => []
  | x :: xs => insertLe le x (insSort le xs)

mutual
/-- One node of `sortNodesRecursive`: the recursive descent into
`node.children` (the comparator never reads children, so recursing
before sorting the sibling list gives the same forest as the code's
sort-then-recurse order). -/
def sortNode : MyNode → MyNode
  | .mk i l t cs fp st ctp => .mk i l t (insSort nodeLe (sortEach cs)) fp st ctp

def sortEach : List MyNode → List MyNode
  | [] => []
  | n :: rest => sortNode n :: sortEach rest
end

/-- `sortNodesRecursive` (lines 748-760): canonically sorts every
sibling list of the forest. -/
def sortNodesRecursive (nodes : List MyNode) : List MyNode :=
  insSort nodeLe (sortEach nodes)

mutual
/-- Recursive sortedness: the sibling list is pairwise `nodeLe`-ordered
and the same holds inside every node. -/
def RSortedN : MyNode → Prop
  | .mk _ _ _ cs _ _ _ =>
    List.Pairwise (fun a b => nodeLe a b = true) cs ∧ RSortedAll cs

def RSortedAll : List MyNode → Prop
  | [] => True
  | n :: rest => RSortedN n ∧ RSortedAll rest
end

def RSortedF (l : List MyNode) : Prop :=
  List.Pairwise (fun a b => nodeLe a b = true) l ∧ RSortedAll l

/-! ### Forest flattening and projections -/

/-- The mutation-invariant projection of a node: everything except the
children list, the presentation flag and the cached tree path. -/
structure FlatNode where
  id : String
  label : String
  ty : NodeType
  filePath : Option String
deriving DecidableEq, Repr

def flat (n : MyNode) : FlatNode := ⟨n.id, n.label, n.ty, n.filePath⟩

mutual
def subtreeN : MyNode → List MyNode
  | .mk ni nl nt cs nfp nst nctp => .mk ni nl nt cs nfp nst nctp :: allNodesF cs

def allNodesF : List MyNode → List MyNode
  | [] => []
  | n :: rest => subtreeN n ++ allNodesF rest
end

def flatF (l : List MyNode) : List FlatNode := (allNodesF l).map flat

def flatM (l : List MyNode) : Multiset FlatNode := (flatF l : List FlatNode)

def flatSubM (n : MyNode) : Multiset FlatNode := ((subtreeN n).map flat : List FlatNode)

def idsF (l : List MyNode) : List String := (allNodesF l).map MyNode.id

def idsM (l : List MyNode) : Multiset String := (idsF l : List String)

/-- Ids of the strict descendants of a node. -/
def strictIds (n : MyNode) : List String := idsF n.children

def subIds (n : MyNode) : List String := (subtreeN n).map MyNode.id

def pathsF (l : List MyNode) : List String := (allNodesF l).filterMap MyNode.filePath

mutual
def childPairsN : MyNode → List (String × FlatNode)
  | .mk ni nl nt cs nfp nst nctp =>
    cs.map (fun c => ((MyNode.mk ni nl nt cs nfp nst nctp).id, flat c)) ++ childPairsF cs

def childPairsF : List MyNode → List (String × FlatNode)
  | [] => []
  | n :: rest => childPairsN n ++ childPairsF rest
end

def cpM (l : List MyNode) : Multiset (String × FlatNode) := (childPairsF l : List (String × FlatNode))

def cpSubM (n : MyNode) : Multiset (String × FlatNode) := (childPairsN n : List (String × FlatNode))

/-! ### The index builder (`rebuildIndex`, lines 281-312) -/

abbrev Index := String → Option MyNode

def emptyIndex : Index := fun _ => none

def setIdx (k : String) (v : MyNode) (idx : Index) : Index :=
  fun x => if x = k then some v else idx x

/-- Model of `vscode.Uri.file(fp).toString()` (percent-encoding of real
URIs is irrelevant to the lookups and elided). -/
def fileUriString (fp : String) : String := "file://" ++ fp

/-- `getGroupUri` (lines 271-273). -/
def groupUriString (n : MyNode) : String := "custom-explorer://group/" ++ n.id

/-- `getCustomExplorerUri` (lines 276-279). -/
def customUriString (n : MyNode) : String :=
  "custom-explorer://tree" ++ (match n.cachedTreePath with
    | some t => t
    | none => "/" ++ n.label)

mutual
/-- The `cachedTreePath` assignment performed by the `rebuildIndex`
traversal (line 288): each node's logical path is the parent path plus
`/` plus its label. -/
def assignN (parentPath : String) : MyNode → MyNode
  | .mk ni nl nt cs nfp nst _ =>
    .mk ni nl nt (assignF (parentPath ++ "/" ++ nl) cs) nfp nst
      (some (parentPath ++ "/" ++ nl))

def assignF (parentPath : String) : List MyNode → List MyNode
  | [] => []
  | n :: rest => assignN parentPath n :: assignF parentPath rest
end

mutual
/-- The map insertions of the `rebuildIndex` traversal (lines 285-310),
performed on the path-assigned forest: nodes with a `filePath` go into
the path index and the URI map under the file URI; groups additionally
under their group URI; every node under its custom-explorer URI.  The
stored value is the node as it finally sits in the forest (in the code
the map stores a pointer to that very node). -/
def buildIdxN : MyNode → Index × Index → Index × Index
  | .mk ni nl nt cs nfp nst nctp, acc =>
    let node : MyNode := .mk ni nl nt cs nfp nst nctp
    let p1 : Index := match nfp with
      | some fp => setIdx fp node acc.1
      | none => acc.1
    let u1 : Index := match nfp with
      | some fp => setIdx (fileUriString fp) node acc.2
      | none => acc.2
    let u2 : Index := if nt = .group then setIdx (groupUriString node) node u1 else u1
    let u3 : Index := setIdx (customUriString node) node u2
    buildIdxF cs (p1, u3)

def buildIdxF : List MyNode → Index × Index → Index × Index
  | [], acc => acc
  | n :: rest, acc => buildIdxF rest (buildIdxN n acc)
end

/-- `rebuildIndex` (lines 281-312): assigns the cached tree paths and
derives the two lookup maps from the resulting forest. -/
def rebuildIndex (data : List MyNode) : List MyNode × Index × Index :=
  let d := assignF "" data
  let idx := buildIdxF d (emptyIndex, emptyIndex)
  (d, idx.1, idx.2)

/-- `saveData` (lines 742-746): rebuild the indexes, sort, persist. -/
def saveData (data : List MyNode) : List MyNode × Index × Index :=
  let r := rebuildIndex data
  (sortNodesRecursive r.1, r.2.1, r.2.2)

/-- `saveAndRefresh` (lines 734-740): sort, then `saveData`, then fire
the tree-change event (represented by the caller seeing the result). -/
def saveAndRefresh (data : List MyNode) : List MyNode × Index × Index :=
  saveData (sortNodesRecursive data)

def saveForest (data : List MyNode) : List MyNode := (saveAndRefresh data).1

/-- The provider state: the forest, the id-generation counter (model of
`Math.random`) and the two indexes as of the last rebuild. -/
structure SysState where
  data : List MyNode
  ctr : Nat
  pidx : Index
  uidx : Index

def saveState (d : List MyNode) (ctr : Nat) : SysState :=
  let r := saveAndRefresh d
  ⟨r.1, ctr, r.2.1, r.2.2⟩

/-- `findNodeByPath` (lines 263-265). -/
def findNodeByPath (st : SysState) (targetPath : String) : Option MyNode :=
  st.pidx targetPath

/-- `getNodeByUri` (lines 267-269). -/
def getNodeByUri (st : SysState) (uri : String) : Option MyNode :=
  st.uidx uri

/-! ### Node store primitives -/

/-- Fresh-id supply modelling `generateId` (lines 769-771); injective in
the counter. -/
def generateId (k : Nat) : String := String.mk (List.replicate (k + 1) 'x')

/-- `shouldExclude` (lines 486-495): a basename is excluded when it ends
with any configured suffix. -/
def shouldExclude (excludes : List String) (filePath : String) : Bool :=
  let fileName := basename filePath
  excludes.any (fun ext => strEndsWith fileName ext)

/-- The level-first search of `removeRecursive` (line 713,
`findIndex` + `splice`): remove the first node of this sibling list
whose id matches. -/
def removeAt (i : String) : List MyNode → Option (MyNode × List MyNode)
  | [] => none
  | n :: rest =>
    if n.id = i then some (n, rest)
    else (removeAt i rest).map fun p => (p.1, n :: p.2)

mutual
/-- Descent step of `removeRecursive` (lines 718-722): search a node's
children level-first, then deeper. -/
def extractN (i : String) : MyNode → Option (MyNode × MyNode)
  | .mk ni nl nt cs nfp nst nctp =>
    match removeAt i cs with
    | some p => some (p.1, .mk ni nl nt p.2 nfp nst nctp)
    | none =>
      match extractF i cs with
      | some p => some (p.1, .mk ni nl nt p.2 nfp nst nctp)
      | none => none

def extractF (i : String) : List MyNode → Option (MyNode × List MyNode)
  | [] => none
  | n :: rest =>
    match extractN i n with
    | some p => some (p.1, p.2 :: rest)
    | none => (extractF i rest).map fun p => (p.1, n :: p.2)
end

/-- `removeRecursive` (lines 711-724) as an extraction: search the top
level first, then the children of each node in order; returns the
removed node and the remaining forest. -/
def removeRecursive (i : String) (nodes : List MyNode) : Option (MyNode × List MyNode) :=
  match removeAt i nodes with
  | some p => some p
  | none => extractF i nodes

/-- `removeNode` with `shouldSave = true` (lines 707-732): on a
successful removal, one save-and-refresh cycle. -/
def removeNode (node : MyNode) (st : SysState) : SysState :=
  match removeRecursive node.id st.data with
  | some p => saveState p.2 st.ctr
  | none => st

mutual
/-- `parent.children.push(newNode)` through a pointer into the forest:
update (pre-order, first match) the node with the given id.  Generic in
the in-place modification `f`. -/
def updateByIdN (i : String) (f : MyNode → MyNode) : MyNode → Option MyNode
  | .mk ni nl nt cs nfp nst nctp =>
    if ni = i then some (f (.mk ni nl nt cs nfp nst nctp))
    else
      match updateByIdF i f cs with
      | some cs' => some (.mk ni nl nt cs' nfp nst nctp)
      | none => none

def updateByIdF (i : String) (f : MyNode → MyNode) : List MyNode → Option (List MyNode)
  | [] => none
  | n :: rest =>
    match updateByIdN i f n with
    | some n' => some (n' :: rest)
    | none => (updateByIdF i f rest).map fun l => n :: l
end

/-- `node.children.push(m)` (with `parent.children = parent.children || []`),
optionally also forcing `collapsibleState = Expanded` as `addGroup`,
`addFile` and `moveNodes` do (`importDirectory` does not). -/
def pushChildFn (expand : Bool) (m : MyNode) : MyNode → MyNode
  | .mk ni nl nt cs nfp nst nctp =>
    .mk ni nl nt (cs ++ [m]) nfp (if expand then some .expanded else nst) nctp

def attachTo (expand : Bool) (i : String) (m : MyNode) (l : List MyNode) :
    Option (List MyNode) :=
  updateByIdF i (pushChildFn expand m) l

def setLabelFn (newName : String) : MyNode → MyNode
  | .mk ni _ nt cs nfp nst nctp => .mk ni newName nt cs nfp nst nctp

/-- `addGroup` (lines 666-682). -/
def addGroup (label : String) (parent : Option MyNode) (st : SysState) : SysState :=
  let newNode : MyNode := .mk (generateId st.ctr) label .group [] none (some .expanded) none
  let d := match parent with
    | some par =>
      if par.ty = .group then (attachTo true par.id newNode st.data).getD st.data
      else st.data ++ [newNode]
    | none => st.data ++ [newNode]
  saveState d (st.ctr + 1)

/-- `addFile` (lines 684-705). -/
def addFile (excludes : List String) (filePath : String) (parent : Option MyNode)
    (st : SysState) : SysState :=
  let fileName := basename filePath
  if shouldExclude excludes fileName then st
  else
    let newNode : MyNode := .mk (generateId st.ctr) fileName .file [] (some filePath) none none
    let d := match parent with
      | some par =>
        if par.ty = .group then (attachTo true par.id newNode st.data).getD st.data
        else st.data ++ [newNode]
      | none => st.data ++ [newNode]
    saveState d (st.ctr + 1)

/-- `renameNode` (lines 566-569): sets the label in place. -/
def renameNode (node : MyNode) (newName : String) (st : SysState) : SysState :=
  let d := (updateByIdF node.id (setLabelFn newName) st.data).getD st.data
  saveState d st.ctr

/-! ### The move/drop resolver (`moveNodes`, lines 629-664) -/

mutual
/-- `isDescendant` (lines 633-638): reachability of `t` from `parent`
through children links (`===` modelled by node equality). -/
def isDescendant : MyNode → MyNode → Bool
  | .mk _ _ _ cs _ _ _, t => isDescForest cs t

def isDescForest : List MyNode → MyNode → Bool
  | [], _ => false
  | c :: rest, t => (decide (c = t) || isDescendant c t) || isDescForest rest t
end

/-- `isValidMove` (lines 630-641). -/
def isValidMove (source : MyNode) (target : Option MyNode) : Bool :=
  match target with
  | none => true
  | some t => if source = t then false else !(isDescendant source t)

/-- One iteration of the `sources.forEach` body of `moveNodes`
(lines 644-659). -/
def moveOne (target : Option MyNode) (acc : List MyNode × Bool) (source : MyNode) :
    List MyNode × Bool :=
  if isValidMove source target = false then acc
  else
    match removeRecursive source.id acc.1 with
    | none => acc
    | some p =>
      match target with
      | some t =>
        if t.ty = .group then ((attachTo true t.id p.1 p.2).getD p.2, true)
        else (p.2 ++ [p.1], true)
      | none => (p.2 ++ [p.1], true)

/-- `moveNodes` (lines 629-664) before its conditional save: the forest
after processing all sources, and the `isChanged` flag (true iff a
save-and-refresh cycle runs). -/
def moveNodes (sources : List MyNode) (target : Option MyNode) (data : List MyNode) :
    List MyNode × Bool :=
  sources.foldl (moveOne target) (data, false)

def moveNodesOp (sources : List MyNode) (target : Option MyNode) (st : SysState) : SysState :=
  let r := moveNodes sources target st.data
  if r.2 then saveState r.1 st.ctr else { st with data := r.1 }

/-! ### The sync reconciler (`handleFileRename` lines 315-340,
`updatePathRecursive` lines 342-356, `handleFileDelete` lines 359-372) -/

/-- The per-child body of `updatePathRecursive` together with the
recursive descent: every strict descendant whose `filePath` starts with
`oldPath` (literal string prefix) has that prefix replaced by
`newPath`. -/
def updatePathF (oldPath newPath : String) : List MyNode → List MyNode
  | [] => []
  | .mk ci cl ct ccs cfp cst cctp :: rest =>
    let newFp : Option String := match cfp with
      | some fp =>
        if strStartsWith fp oldPath then some (newPath ++ strDropN fp (strLen oldPath))
        else some fp
      | none => none
    .mk ci cl ct (updatePathF oldPath newPath ccs) newFp cst cctp
      :: updatePathF oldPath newPath rest

/-- `updatePathRecursive` (lines 342-356): rewrites the paths of all
strict descendants; the node itself is untouched. -/
def updatePathRecursive (oldPath newPath : String) : MyNode → MyNode
  | .mk ni nl nt cs nfp nst nctp => .mk ni nl nt (updatePathF oldPath newPath cs) nfp nst nctp

def setLabelPathFn (lab fp : String) : MyNode → MyNode
  | .mk ni _ nt cs _ nst nctp => .mk ni lab nt cs (some fp) nst nctp

/-- The whole mutation `handleFileRename` applies to the matched node:
label := basename of the new path, filePath := new path, then the
descendant path rewrite. -/
def renameTarget (oldPath newPath : String) (n : MyNode) : MyNode :=
  updatePathRecursive oldPath newPath (setLabelPathFn (basename newPath) newPath n)

/-- The per-node effect of `updatePathRecursive` on the observable fields:
a `filePath` that starts with the old path (literal string match) has that
leading piece replaced by the new path (`substring` + concatenation); any
other node is untouched. -/
def flatRename (oldPath newPath : String) (f : FlatNode) : FlatNode :=
  ⟨f.id, f.label, f.ty,
    match f.filePath with
    | some fp =>
      if strStartsWith fp oldPath then some (newPath ++ strDropN fp (strLen oldPath))
      else some fp
    | none => none⟩

/-- `handleFileRename` (lines 315-340): every pair is looked up in the
path index as of the last rebuild; on a hit the matched node (pointer
dereference modelled by id update) is renamed; one save-and-refresh at
the end iff some pair hit. -/
def handleFileRename (files : List (String × String)) (st : SysState) : SysState :=
  let r := files.foldl (fun acc f =>
    match st.pidx f.1 with
    | none => acc
    | some tn => ((updateByIdF tn.id (renameTarget f.1 f.2) acc.1).getD acc.1, true)) (st.data, false)
  if r.2 then saveState r.1 st.ctr else { st with data := r.1 }

/-- `handleFileDelete` (lines 359-372). -/
def handleFileDelete (paths : List String) (st : SysState) : SysState :=
  let r := paths.foldl (fun acc p =>
    match st.pidx p with
    | none => acc
    | some n =>
      ((match removeRecursive n.id acc.1 with
        | some q => q.2
        | none => acc.1), true)) (st.data, false)
  if r.2 then saveState r.1 st.ctr else { st with data := r.1 }

/-! ### Expand/collapse (lines 571-617) -/

mutual
/-- `resetNodeState` (lines 573-581 / 597-605): groups get the given
presentation state and a fresh id, and the reset recurses into their
children; non-group nodes are untouched. -/
def resetNodeState (stv : CState) (ctr : Nat) : MyNode → MyNode × Nat
  | .mk ni nl nt cs nfp nst nctp =>
    match nt with
    | .group =>
      let p := resetForest stv (ctr + 1) cs
      (.mk (generateId ctr) nl .group p.1 nfp (some stv) nctp, p.2)
    | .file => (.mk ni nl .file cs nfp nst nctp, ctr)

def resetForest (stv : CState) (ctr : Nat) : List MyNode → List MyNode × Nat
  | [] => ([], ctr)
  | n :: rest =>
    let p := resetNodeState stv ctr n
    let q := resetForest stv p.2 rest
    (p.1 :: q.1, q.2)
end

mutual
/-- Reset applied through a pointer to a single targeted node, modelled
as a pre-order search by id. -/
def resetTargetN (stv : CState) (i : String) (ctr : Nat) : MyNode → Option (MyNode × Nat)
  | .mk ni nl nt cs nfp nst nctp =>
    if ni = i then some (resetNodeState stv ctr (.mk ni nl nt cs nfp nst nctp))
    else
      match resetTargetF stv i ctr cs with
      | some p => some (.mk ni nl nt p.1 nfp nst nctp, p.2)
      | none => none

def resetTargetF (stv : CState) (i : String) (ctr : Nat) :
    List MyNode → Option (List MyNode × Nat)
  | [] => none
  | n :: rest =>
    match resetTargetN stv i ctr n with
    | some p => some (p.1 :: rest, p.2)
    | none => (resetTargetF stv i ctr rest).map fun p => (n :: p.1, p.2)
end

/-- `collapseRecursive` (lines 571-593): reset the targeted node (or all
roots), then sort and persist; the indexes are NOT rebuilt. -/
def collapseRecursive (node : Option MyNode) (st : SysState) : SysState :=
  let r := match node with
    | some n => (resetTargetF .collapsed n.id st.ctr st.data).getD (st.data, st.ctr)
    | none => resetForest .collapsed st.ctr st.data
  { data := sortNodesRecursive r.1, ctr := r.2, pidx := st.pidx, uidx := st.uidx }

/-- `expandRecursive` (lines 595-617). -/
def expandRecursive (node : Option MyNode) (st : SysState) : SysState :=
  let r := match node with
    | some n => (resetTargetF .expanded n.id st.ctr st.data).getD (st.data, st.ctr)
    | none => resetForest .expanded st.ctr st.data
  { data := sortNodesRecursive r.1, ctr := r.2, pidx := st.pidx, uidx := st.uidx }

/-! ### The import pipeline (`importDirectory`, lines 497-563) -/

/-- One directory listing entry of the modelled filesystem
(`fs.readdirSync(..., { withFileTypes: true })`), in listing order. -/
inductive FSEntry where
  | file (name : String)
  | dir (name : String) (entries : List FSEntry)

mutual
/-- One iteration of the `scanRecursive` loop (lines 519-559): excluded
names are skipped, subdirectories become collapsed groups (with their
path recorded) and are scanned recursively, regular files become file
nodes unless named `.DS_Store`. -/
def scanEntry (ex : List String) (currentPath : String) (ctr : Nat) : FSEntry → List MyNode × Nat
  | .file name =>
    if shouldExclude ex name then ([], ctr)
    else if name = ".DS_Store" then ([], ctr)
    else ([.mk (generateId ctr) name .file [] (some (currentPath ++ "/" ++ name)) none none],
      ctr + 1)
  | .dir name entries =>
    if shouldExclude ex name then ([], ctr)
    else
      let gid := generateId ctr
      let p := scanEntries ex (currentPath ++ "/" ++ name) (ctr + 1) entries
      ([.mk gid name .group p.1 (some (currentPath ++ "/" ++ name)) (some .collapsed) none], p.2)

def scanEntries (ex : List String) (currentPath : String) (ctr : Nat) :
    List FSEntry → List MyNode × Nat
  | [] => ([], ctr)
  | e :: rest =>
    let p := scanEntry ex currentPath ctr e
    let q := scanEntries ex currentPath p.2 rest
    (p.1 ++ q.1, q.2)
end

/-- `importDirectory` (lines 497-563): no-op when the directory's own
basename is excluded; otherwise synthesizes an expanded group for the
directory (path recorded), scans the listing into it, attaches it to the
parent group or the root, and runs one save-and-refresh cycle. -/
def importDirectory (ex : List String) (dirPath : String) (entries : List FSEntry)
    (parent : Option MyNode) (st : SysState) : SysState :=
  let dirName := basename dirPath
  if shouldExclude ex dirName then st
  else
    let gid := generateId st.ctr
    let p := scanEntries ex dirPath (st.ctr + 1) entries
    let newGroup : MyNode := .mk gid dirName .group p.1 (some dirPath) (some .expanded) none
    let d := match parent with
      | some par =>
        if par.ty = .group then (attachTo false par.id newGroup st.data).getD st.data
        else st.data ++ [newGroup]
      | none => st.data ++ [newGroup]
    saveState d p.2

/-! ### The operations of the provider, as one step relation -/

inductive Op where
  | opAddGroup (label : String) (parent : Option MyNode)
  | opAddFile (excludes : List String) (path : String) (parent : Option MyNode)
  | opRenameNode (node : MyNode) (newName : String)
  | opRemoveNode (node : MyNode)
  | opMoveNodes (sources : List MyNode) (target : Option MyNode)
  | opImportDirectory (excludes : List String) (dirPath : String) (entries : List FSEntry)
      (parent : Option MyNode)
  | opHandleFileRename (files : List (String × String))
  | opHandleFileDelete (paths : List String)
  | opCollapseRecursive (node : Option MyNode)
  | opExpandRecursive (node : Option MyNode)

def applyOp : Op → SysState → SysState
  | .opAddGroup label parent => addGroup label parent
  | .opAddFile ex path parent => addFile ex path parent
  | .opRenameNode node newName => renameNode node newName
  | .opRemoveNode node => removeNode node
  | .opMoveNodes sources target => moveNodesOp sources target
  | .opImportDirectory ex dirPath entries parent => importDirectory ex dirPath entries parent
  | .opHandleFileRename files => handleFileRename files
  | .opHandleFileDelete paths => handleFileDelete paths
  | .opCollapseRecursive node => collapseRecursive node
  | .opExpandRecursive node => expandRecursive node

/-! ### Shapes (labels, types and nesting only) -/

inductive Shape where
  | group (label : String) (children : List Shape)
  | file (label : String)

mutual
def shapeN : MyNode → Shape
  | .mk _ l t cs _ _ _ =>
    match t with
    | .group => .group l (shapeF cs)
    | .file => .file l

def shapeF : List MyNode → List Shape
  | [] => []
  | n :: rest => shapeN n :: shapeF rest
end

/-! ### The ordering predicate of the spec (groups before files,
labels non-decreasing under locale comparison, in every sibling list) -/

mutual
def OrderedN : MyNode → Prop
  | .mk _ _ _ cs _ _ _ =>
    (cs.Pairwise fun a b =>
      (a.ty = .file → b.ty = .file) ∧ (a.ty = b.ty → localeCompare a.label b.label ≤ 0))
    ∧ OrderedAllF cs

def OrderedAllF : List MyNode → Prop
  | [] => True
  | n :: rest => OrderedN n ∧ OrderedAllF rest
end

/-- Every sibling list of the forest (the top level and the children of
every node) has all group nodes before all file nodes and, within
same-type siblings, non-decreasing labels under locale comparison. -/
def OrderedForest (l : List MyNode) : Prop :=
  (l.Pairwise fun a b =>
    (a.ty = .file → b.ty = .file) ∧ (a.ty = b.ty → localeCompare a.label b.label ≤ 0))
  ∧ OrderedAllF l

/-! ### The fresh-id supply and the id-uniqueness invariant -/

/-- The ids handed out by the fresh-id supply while the counter runs from
`a` (inclusive) to `b` (exclusive). -/
def freshIds (a b : Nat) : Multiset String :=
  ((List.range' a (b - a)).map generateId : List String)

/-- The multiset of ids of a node's whole subtree. -/
def subIdsM (n : MyNode) : Multiset String := (flatSubM n).map FlatNode.id

/-- The id-uniqueness invariant: ids are pairwise distinct across the
whole forest, and every id present was handed out by the fresh-id supply
before the current counter value. -/
def IdInv (st : SysState) : Prop :=
  (idsF st.data).Nodup ∧ ∀ i ∈ idsF st.data, ∃ k ∈ List.range st.ctr, i = generateId k

/-! ### Basic structural lemmas -/

@[simp] theorem MyNode.id_mk (i l : String) (t : NodeType) (cs : List MyNode)
    (fp : Option String) (st : Option CState) (ctp : Option String) :
    (MyNode.mk i l t cs fp st ctp).id = i := rfl

@[simp] theorem MyNode.label_mk (i l : String) (t : NodeType) (cs : List MyNode)
    (fp : Option String) (st : Option CState) (ctp : Option String) :
    (MyNode.mk i l t cs fp st ctp).label = l := rfl

@[simp] theorem MyNode.ty_mk (i l : String) (t : NodeType) (cs : List MyNode)
    (fp : Option String) (st : Option CState) (ctp : Option String) :
    (MyNode.mk i l t cs fp st ctp).ty = t := rfl

@[simp] theorem MyNode.children_mk (i l : String) (t : NodeType) (cs : List MyNode)
    (fp : Option String) (st : Option CState) (ctp : Option String) :
    (MyNode.mk i l t cs fp st ctp).children = cs := rfl

@[simp] theorem MyNode.filePath_mk (i l : String) (t : NodeType) (cs : List MyNode)
    (fp : Option String) (st : Option CState) (ctp : Option String) :
    (MyNode.mk i l t cs fp st ctp).filePath = fp := rfl

@[simp] theorem MyNode.collapsibleState_mk (i l : String) (t : NodeType) (cs : List MyNode)
    (fp : Option String) (st : Option CState) (ctp : Option String) :
    (MyNode.mk i l t cs fp st ctp).collapsibleState = st := rfl

@[simp] theorem MyNode.cachedTreePath_mk (i l : String) (t : NodeType) (cs : List MyNode)
    (fp : Option String) (st : Option CState) (ctp : Option String) :
    (MyNode.mk i l t cs fp st ctp).cachedTreePath = ctp := rfl

theorem MyNode.eta (n : MyNode) :
    MyNode.mk n.id n.label n.ty n.children n.filePath n.collapsibleState n.cachedTreePath = n := by
  cases n; rfl

mutual
theorem forest_ind_node {P : MyNode → Prop}
    (h : ∀ (i l : String) (t : NodeType) (cs : List MyNode) (fp : Option String)
      (st : Option CState) (ctp : Option String),
      (∀ c ∈ cs, P c) → P (.mk i l t cs fp st ctp)) :
    ∀ n, P n
  | .mk i l t cs fp st ctp => h i l t cs fp st ctp (forest_ind_list h cs)

theorem forest_ind_list {P : MyNode → Prop}
    (h : ∀ (i l : String) (t : NodeType) (cs : List MyNode) (fp : Option String)
      (st : Option CState) (ctp : Option String),
      (∀ c ∈ cs, P c) → P (.mk i l t cs fp st ctp)) :
    ∀ ns : List MyNode, ∀ c ∈ ns, P c
  | [], c, hc => nomatch hc
  | n :: rest, c, hc => by
    rcases List.mem_cons.1 hc with h1 | h2
    · subst h1; exact forest_ind_node h c
    · exact forest_ind_list h rest c h2
end

@[simp] theorem allNodesF_nil : allNodesF [] = [] := rfl

theorem allNodesF_cons (n : MyNode) (rest : List MyNode) :
    allNodesF (n :: rest) = subtreeN n ++ allNodesF rest := by
  cases n; rw [allNodesF]

theorem subtreeN_eq (n : MyNode) : subtreeN n = n :: allNodesF n.children := by
  cases n; rw [subtreeN]; rfl

theorem allNodesF_append (l₁ l₂ : List MyNode) :
    allNodesF (l₁ ++ l₂) = allNodesF l₁ ++ allNodesF l₂ := by
  induction l₁ with
  | nil => simp
  | cons n rest ih => simp [allNodesF_cons, ih]

theorem self_mem_subtreeN (n : MyNode) : n ∈ subtreeN n := by
  rw [subtreeN_eq]; exact List.mem_cons_self n _

theorem mem_allNodesF {a : MyNode} {l : List MyNode} :
    a ∈ allNodesF l ↔ ∃ c ∈ l, a ∈ subtreeN c := by
  induction l with
  | nil => simp
  | cons n rest ih =>
    rw [allNodesF_cons, List.mem_append, ih]
    constructor
    · rintro (h | ⟨c, hc, hm⟩)
      · exact ⟨n, List.mem_cons_self n rest, h⟩
      · exact ⟨c, List.mem_cons_of_mem n hc, hm⟩
    · rintro ⟨c, hc, hm⟩
      rcases List.mem_cons.1 hc with h1 | h2
      · subst h1; exact Or.inl hm
      · exact Or.inr ⟨c, h2, hm⟩

theorem mem_of_mem_allNodesF {a : MyNode} {l : List MyNode} (h : a ∈ l) : a ∈ allNodesF l := by
  rw [mem_allNodesF]; exact ⟨a, h, self_mem_subtreeN a⟩

theorem subtree_mem_trans_node {n : MyNode} :
    ∀ a ∈ subtreeN n, ∀ b ∈ allNodesF a.children, b ∈ subtreeN n := by
  induction n using forest_ind_node with
  | _ i l t cs fp st ctp ih =>
    intro a ha b hb
    rw [subtreeN_eq] at ha ⊢
    rcases List.mem_cons.1 ha with h1 | h2
    · subst h1
      exact List.mem_cons_of_mem _ hb
    · simp only [MyNode.children_mk] at h2 ⊢
      rcases mem_allNodesF.1 h2 with ⟨c, hc, hm⟩
      have := ih c hc a hm b hb
      refine List.mem_cons_of_mem _ ?_
      rw [mem_allNodesF]
      exact ⟨c, hc, this⟩

theorem mem_allNodesF_trans {a b : MyNode} {l : List MyNode}
    (ha : a ∈ allNodesF l) (hb : b ∈ allNodesF a.children) : b ∈ allNodesF l := by
  rcases mem_allNodesF.1 ha with ⟨c, hc, hm⟩
  rw [mem_allNodesF]
  exact ⟨c, hc, subtree_mem_trans_node a hm b hb⟩

theorem flatM_nil : flatM [] = 0 := rfl

theorem flatM_cons (n : MyNode) (rest : List MyNode) :
    flatM (n :: rest) = flatSubM n + flatM rest := by
  simp only [flatM, flatSubM, flatF, allNodesF_cons, List.map_append]
  exact (Multiset.coe_add _ _)

theorem flatSubM_eq (n : MyNode) : flatSubM n = flat n ::ₘ flatM n.children := by
  simp only [flatSubM, flatM, flatF, subtreeN_eq, List.map_cons]
  rfl

theorem flatM_append (l₁ l₂ : List MyNode) : flatM (l₁ ++ l₂) = flatM l₁ + flatM l₂ := by
  simp only [flatM, flatF, allNodesF_append, List.map_append]
  exact (Multiset.coe_add _ _)

theorem mem_flatM {x : FlatNode} {l : List MyNode} :
    x ∈ flatM l ↔ ∃ n ∈ allNodesF l, flat n = x := by
  simp only [flatM, flatF, Multiset.mem_coe, List.mem_map]

theorem flat_mem_flatM {n : MyNode} {l : List MyNode} (h : n ∈ allNodesF l) :
    flat n ∈ flatM l := mem_flatM.2 ⟨n, h, rfl⟩

@[simp] theorem flat_mk (i l : String) (t : NodeType) (cs : List MyNode)
    (fp : Option String) (st : Option CState) (ctp : Option String) :
    flat (MyNode.mk i l t cs fp st ctp) = ⟨i, l, t, fp⟩ := rfl

theorem idsM_eq_map (l : List MyNode) : idsM l = (flatM l).map FlatNode.id := by
  simp only [idsM, idsF, flatM, flatF, Multiset.map_coe, List.map_map]
  rfl

theorem mem_idsF {x : String} {l : List MyNode} :
    x ∈ idsF l ↔ ∃ n ∈ allNodesF l, n.id = x := by
  simp only [idsF, List.mem_map]

/-! ### Comparator lemmas -/

theorem charListLe_cons (x y : Char) (xs ys : List Char) :
    charListLe (x :: xs) (y :: ys) =
      if x.toNat < y.toNat then true
      else if y.toNat < x.toNat then false
      else charListLe xs ys := rfl

theorem charListLe_total : ∀ a b : List Char, charListLe a b = true ∨ charListLe b a = true
  | [], _ => Or.inl rfl
  | _ :: _, [] => Or.inr rfl
  | x :: xs, y :: ys => by
    rw [charListLe_cons, charListLe_cons]
    by_cases hxy : x.toNat < y.toNat
    · simp [hxy]
    · by_cases hyx : y.toNat < x.toNat
      · simp [hyx]
      · simp only [hxy, hyx, if_false]
        exact charListLe_total xs ys

theorem charListLe_trans :
    ∀ a b c : List Char, charListLe a b = true → charListLe b c = true →
      charListLe a c = true
  | [], _, _, _, _ => rfl
  | _ :: _, [], _, h1, _ => by simp [charListLe] at h1
  | _ :: _, _ :: _, [], _, h2 => by simp [charListLe] at h2
  | x :: xs, y :: ys, z :: zs, h1, h2 => by
    rw [charListLe_cons] at h1 h2 ⊢
    by_cases hxy : x.toNat < y.toNat
    · by_cases hyz : y.toNat < z.toNat
      · simp [Nat.lt_trans hxy hyz]
      · by_cases hzy : z.toNat < y.toNat
        · simp [hyz, hzy] at h2
        · have hxz : x.toNat < z.toNat := by omega
          simp [hxz]
    · by_cases hyx : y.toNat < x.toNat
      · simp [hxy, hyx] at h1
      · simp only [hxy, hyx, if_false] at h1
        by_cases hyz : y.toNat < z.toNat
        · have hxz : x.toNat < z.toNat := by omega
          simp [hxz]
        · by_cases hzy : z.toNat < y.toNat
          · simp [hyz, hzy] at h2
          · simp only [hyz, hzy, if_false] at h2
            have hxz : ¬ x.toNat < z.toNat := by omega
            have hzx : ¬ z.toNat < x.toNat := by omega
            simp only [hxz, hzx, if_false]
            exact charListLe_trans xs ys zs h1 h2

theorem strLeB_total (a b : String) : strLeB a b = true ∨ strLeB b a = true :=
  charListLe_total a.toList b.toList

theorem strLeB_trans {a b c : String} (h1 : strLeB a b = true) (h2 : strLeB b c = true) :
    strLeB a c = true :=
  charListLe_trans a.toList b.toList c.toList h1 h2

theorem localeCompare_le_zero (a b : String) :
    decide (localeCompare a b ≤ 0) = strLeB a b := by
  unfold localeCompare
  by_cases h1 : strLeB a b
  · by_cases h2 : strLeB b a <;> simp [h1, h2]
  · simp [h1]

theorem nodeLe_eq (a b : MyNode) :
    nodeLe a b = (match a.ty, b.ty with
      | .group, .file => true
      | .file, .group => false
      | _, _ => strLeB a.label b.label) := by
  unfold nodeLe nodeCompare
  cases ha : a.ty <;> cases hb : b.ty <;>
    simp only [ha, hb] <;> simp [localeCompare_le_zero]

theorem nodeLe_total (a b : MyNode) : nodeLe a b = true ∨ nodeLe b a = true := by
  rw [nodeLe_eq, nodeLe_eq]
  cases ha : a.ty <;> cases hb : b.ty <;> simp <;> exact strLeB_total _ _

theorem nodeLe_trans {a b c : MyNode} (h1 : nodeLe a b = true) (h2 : nodeLe b c = true) :
    nodeLe a c = true := by
  rw [nodeLe_eq] at h1 h2 ⊢
  cases ha : a.ty <;> cases hb : b.ty <;> cases hc : c.ty <;>
    simp_all <;> exact strLeB_trans h1 h2

theorem nodeLe_congr {a a' b b' : MyNode} (h1 : a.ty = a'.ty) (h2 : a.label = a'.label)
    (h3 : b.ty = b'.ty) (h4 : b.label = b'.label) : nodeLe a b = nodeLe a' b' := by
  rw [nodeLe_eq, nodeLe_eq, h1, h2, h3, h4]

/-! ### Insertion sort lemmas -/

theorem mem_insertLe {le : MyNode → MyNode → Bool} {x a : MyNode} :
    ∀ {l : List MyNode}, x ∈ insertLe le a l ↔ x = a ∨ x ∈ l := by
  intro l
  induction l with
  | nil => simp [insertLe]
  | cons y ys ih =>
    rw [insertLe]
    split
    · simp [List.mem_cons]
    · simp only [List.mem_cons, ih]
      tauto

theorem insertLe_perm (le : MyNode → MyNode → Bool) (a : MyNode) :
    ∀ l : List MyNode, (insertLe le a l).Perm (a :: l) := by
  intro l
  induction l with
  | nil => rfl
  | cons y ys ih =>
    rw [insertLe]
    split
    · rfl
    · exact (ih.cons y).trans (List.Perm.swap a y ys)

theorem insSort_perm (le : MyNode → MyNode → Bool) :
    ∀ l : List MyNode, (insSort le l).Perm l := by
  intro l
  induction l with
  | nil => rfl
  | cons x xs ih => exact (insertLe_perm le x (insSort le xs)).trans (ih.cons x)

theorem insertLe_pairwise {le : MyNode → MyNode → Bool}
    (htot : ∀ a b, le a b = true ∨ le b a = true)
    (htr : ∀ {a b c}, le a b = true → le b c = true → le a c = true) (a : MyNode) :
    ∀ {l : List MyNode}, l.Pairwise (fun x y => le x y = true) →
      (insertLe le a l).Pairwise (fun x y => le x y = true) := by
  intro l hl
  induction l with
  | nil => simp [insertLe]
  | cons y ys ih =>
    rw [insertLe]
    rcases List.pairwise_cons.1 hl with ⟨hy, hys⟩
    split
    · next hle =>
      refine List.pairwise_cons.2 ⟨?_, hl⟩
      intro b hb
      rcases List.mem_cons.1 hb with h1 | h2
      · subst h1; exact hle
      · exact htr hle (hy b h2)
    · next hle =>
      have hya : le y a = true := by
        rcases htot a y with h | h
        · exact absurd h hle
        · exact h
      refine List.pairwise_cons.2 ⟨?_, ih hys⟩
      intro b hb
      rcases mem_insertLe.1 hb with h1 | h2
      · subst h1; exact hya
      · exact hy b h2

theorem insSort_pairwise {le : MyNode → MyNode → Bool}
    (htot : ∀ a b, le a b = true ∨ le b a = true)
    (htr : ∀ {a b c}, le a b = true → le b c = true → le a c = true) :
    ∀ l : List MyNode, (insSort le l).Pairwise (fun x y => le x y = true) := by
  intro l
  induction l with
  | nil => simp [insSort]
  | cons x xs ih =>
    rw [insSort]
    exact insertLe_pairwise htot htr x ih

theorem insSort_of_pairwise {le : MyNode → MyNode → Bool} :
    ∀ {l : List MyNode}, l.Pairwise (fun x y => le x y = true) → insSort le l = l := by
  intro l hl
  induction l with
  | nil => rfl
  | cons x xs ih =>
    rcases List.pairwise_cons.1 hl with ⟨hx, hxs⟩
    rw [insSort, ih hxs]
    cases xs with
    | nil => rfl
    | cons y ys =>
      rw [insertLe, if_pos (hx y (List.mem_cons_self y ys))]

/-! ### Sort engine lemmas -/

theorem sortEach_eq_map : ∀ l : List MyNode, sortEach l = l.map sortNode
  | [] => rfl
  | n :: rest => by rw [sortEach, sortEach_eq_map rest, List.map_cons]

theorem sortNode_mk (i l : String) (t : NodeType) (cs : List MyNode)
    (fp : Option String) (st : Option CState) (ctp : Option String) :
    sortNode (.mk i l t cs fp st ctp) = .mk i l t (insSort nodeLe (sortEach cs)) fp st ctp :=
  by rw [sortNode]

theorem flat_sortNode (n : MyNode) : flat (sortNode n) = flat n := by
  cases n; rw [sortNode_mk]; rfl

theorem sortNode_children (n : MyNode) :
    (sortNode n).children = insSort nodeLe (sortEach n.children) := by
  cases n; rw [sortNode_mk]; rfl

theorem RSortedN_mk (i l : String) (t : NodeType) (cs : List MyNode)
    (fp : Option String) (st : Option CState) (ctp : Option String) :
    RSortedN (.mk i l t cs fp st ctp) ↔
      List.Pairwise (fun a b => nodeLe a b = true) cs ∧ RSortedAll cs := by
  rw [RSortedN]

theorem RSortedAll_iff : ∀ l : List MyNode, RSortedAll l ↔ ∀ n ∈ l, RSortedN n
  | [] => by rw [RSortedAll]; simp
  | n :: rest => by
    rw [RSortedAll, RSortedAll_iff rest]
    constructor
    · rintro ⟨h1, h2⟩ c hc
      rcases List.mem_cons.1 hc with h | h
      · subst h; exact h1
      · exact h2 c h
    · intro h
      exact ⟨h n (List.mem_cons_self n rest), fun c hc => h c (List.mem_cons_of_mem n hc)⟩

theorem RSortedN_iff (n : MyNode) :
    RSortedN n ↔ List.Pairwise (fun a b => nodeLe a b = true) n.children
      ∧ RSortedAll n.children := by
  cases n; rw [RSortedN_mk]; rfl

theorem sortNode_rsorted : ∀ n : MyNode, RSortedN (sortNode n) := by
  intro n
  induction n using forest_ind_node with
  | _ i l t cs fp st ctp ih =>
    rw [sortNode_mk, RSortedN_mk]
    refine ⟨insSort_pairwise nodeLe_total nodeLe_trans _, ?_⟩
    rw [RSortedAll_iff]
    intro x hx
    have hx2 : x ∈ sortEach cs := ((insSort_perm nodeLe (sortEach cs)).mem_iff).1 hx
    rw [sortEach_eq_map] at hx2
    rcases List.mem_map.1 hx2 with ⟨c, hc, hcx⟩
    subst hcx
    exact ih c hc

theorem sortNodesRecursive_rsorted (l : List MyNode) : RSortedF (sortNodesRecursive l) := by
  unfold sortNodesRecursive RSortedF
  refine ⟨insSort_pairwise nodeLe_total nodeLe_trans _, ?_⟩
  rw [RSortedAll_iff]
  intro x hx
  have hx2 : x ∈ sortEach l := ((insSort_perm nodeLe (sortEach l)).mem_iff).1 hx
  rw [sortEach_eq_map] at hx2
  rcases List.mem_map.1 hx2 with ⟨c, _, hcx⟩
  subst hcx
  exact sortNode_rsorted c

theorem sortEach_eq_self (l : List MyNode) (h : ∀ c ∈ l, sortNode c = c) : sortEach l = l := by
  rw [sortEach_eq_map]
  exact List.map_congr_left h |>.trans (List.map_id l)

theorem sortNode_of_rsorted : ∀ n : MyNode, RSortedN n → sortNode n = n := by
  intro n
  induction n using forest_ind_node with
  | _ i l t cs fp st ctp ih =>
    intro hs
    rw [RSortedN_mk] at hs
    rw [sortNode_mk]
    have h1 : sortEach cs = cs := by
      refine sortEach_eq_self cs ?_
      intro c hc
      exact ih c hc ((RSortedAll_iff cs).1 hs.2 c hc)
    rw [h1, insSort_of_pairwise hs.1]

theorem sortNodesRecursive_of_rsorted {l : List MyNode} (h : RSortedF l) :
    sortNodesRecursive l = l := by
  unfold sortNodesRecursive
  have h1 : sortEach l = l := by
    refine sortEach_eq_self l ?_
    intro c hc
    exact sortNode_of_rsorted c ((RSortedAll_iff l).1 h.2 c hc)
  rw [h1, insSort_of_pairwise h.1]

/-! ### Flat and child-pair preservation by the sort engine -/

theorem allNodesF_eq_flatMap : ∀ l : List MyNode, allNodesF l = l.flatMap subtreeN
  | [] => rfl
  | n :: rest => by
    rw [allNodesF_cons, allNodesF_eq_flatMap rest, List.flatMap_cons]

theorem allNodesF_perm {l₁ l₂ : List MyNode} (h : l₁.Perm l₂) :
    (allNodesF l₁).Perm (allNodesF l₂) := by
  rw [allNodesF_eq_flatMap, allNodesF_eq_flatMap]
  exact List.Perm.flatMap_right subtreeN h

theorem flatM_of_perm {l₁ l₂ : List MyNode} (h : l₁.Perm l₂) : flatM l₁ = flatM l₂ := by
  simp only [flatM, flatF]
  exact Multiset.coe_eq_coe.2 ((allNodesF_perm h).map flat)

theorem flatM_sortEach (l : List MyNode) (h : ∀ c ∈ l, flatSubM (sortNode c) = flatSubM c) :
    flatM (sortEach l) = flatM l := by
  induction l with
  | nil => rfl
  | cons n rest ih =>
    rw [sortEach, flatM_cons, flatM_cons, h n (List.mem_cons_self n rest),
      ih fun c hc => h c (List.mem_cons_of_mem n hc)]

theorem flatSubM_sortNode : ∀ n : MyNode, flatSubM (sortNode n) = flatSubM n := by
  intro n
  induction n using forest_ind_node with
  | _ i l t cs fp st ctp ih =>
    rw [sortNode_mk, flatSubM_eq, flatSubM_eq]
    simp only [MyNode.children_mk, flat_mk]
    rw [flatM_of_perm (insSort_perm nodeLe (sortEach cs)), flatM_sortEach cs ih]

theorem flatM_sortNodesRecursive (l : List MyNode) : flatM (sortNodesRecursive l) = flatM l := by
  unfold sortNodesRecursive
  rw [flatM_of_perm (insSort_perm nodeLe (sortEach l)), flatM_sortEach l
    fun c _ => flatSubM_sortNode c]

theorem childPairsF_cons (n : MyNode) (rest : List MyNode) :
    childPairsF (n :: rest) = childPairsN n ++ childPairsF rest := by
  rw [childPairsF]

theorem cpM_cons (n : MyNode) (rest : List MyNode) :
    cpM (n :: rest) = cpSubM n + cpM rest := by
  simp only [cpM, cpSubM, childPairsF_cons]
  exact (Multiset.coe_add _ _)

theorem childPairsN_mk (i l : String) (t : NodeType) (cs : List MyNode)
    (fp : Option String) (st : Option CState) (ctp : Option String) :
    childPairsN (.mk i l t cs fp st ctp) = cs.map (fun c => (i, flat c)) ++ childPairsF cs := by
  rw [childPairsN]; rfl

theorem childPairsF_eq_flatMap : ∀ l : List MyNode, childPairsF l = l.flatMap childPairsN
  | [] => rfl
  | n :: rest => by
    rw [childPairsF_cons, childPairsF_eq_flatMap rest, List.flatMap_cons]

theorem cpM_of_perm {l₁ l₂ : List MyNode} (h : l₁.Perm l₂) : cpM l₁ = cpM l₂ := by
  simp only [cpM, childPairsF_eq_flatMap]
  exact Multiset.coe_eq_coe.2 (List.Perm.flatMap_right childPairsN h)

theorem cpM_sortEach (l : List MyNode) (h : ∀ c ∈ l, cpSubM (sortNode c) = cpSubM c) :
    cpM (sortEach l) = cpM l := by
  induction l with
  | nil => rfl
  | cons n rest ih =>
    rw [sortEach, cpM_cons, cpM_cons, h n (List.mem_cons_self n rest),
      ih fun c hc => h c (List.mem_cons_of_mem n hc)]

theorem cpSubM_sortNode : ∀ n : MyNode, cpSubM (sortNode n) = cpSubM n := by
  intro n
  induction n using forest_ind_node with
  | _ i l t cs fp st ctp ih =>
    rw [sortNode_mk]
    simp only [cpSubM, childPairsN_mk]
    have h1 : ((insSort nodeLe (sortEach cs)).map (fun c => (i, flat c))).Perm
        (cs.map (fun c => (i, flat c))) := by
      have h2 : ((sortEach cs).map (fun c => (i, flat c))) = cs.map (fun c => (i, flat c)) := by
        rw [sortEach_eq_map, List.map_map]
        refine List.map_congr_left ?_
        intro c _
        simp [Function.comp, flat_sortNode]
      exact (((insSort_perm nodeLe (sortEach cs)).map _).trans (h2 ▸ List.Perm.refl _))
    have h3 : (childPairsF (insSort nodeLe (sortEach cs)) : Multiset (String × FlatNode))
        = (childPairsF cs : Multiset (String × FlatNode)) := by
      have := cpM_of_perm (insSort_perm nodeLe (sortEach cs))
      simp only [cpM] at this
      rw [this]
      have h4 := cpM_sortEach cs ih
      simpa only [cpM] using h4
    calc ((insSort nodeLe (sortEach cs)).map (fun c => (i, flat c))
          ++ childPairsF (insSort nodeLe (sortEach cs)) : Multiset (String × FlatNode))
        = ((insSort nodeLe (sortEach cs)).map (fun c => (i, flat c)) : List (String × FlatNode))
          + (childPairsF (insSort nodeLe (sortEach cs)) : Multiset (String × FlatNode)) :=
          Multiset.coe_add _ _
      _ = (cs.map (fun c => (i, flat c)) : List (String × FlatNode))
          + (childPairsF cs : Multiset (String × FlatNode)) := by
          rw [Multiset.coe_eq_coe.2 h1, h3]
      _ = (cs.map (fun c => (i, flat c)) ++ childPairsF cs : Multiset (String × FlatNode)) :=
          (Multiset.coe_add _ _).symm

theorem cpM_sortNodesRecursive (l : List MyNode) : cpM (sortNodesRecursive l) = cpM l := by
  unfold sortNodesRecursive
  rw [cpM_of_perm (insSort_perm nodeLe (sortEach l)), cpM_sortEach l fun c _ => cpSubM_sortNode c]

/-! ### Path-assignment lemmas -/

theorem assignN_mk (p : String) (i l : String) (t : NodeType) (cs : List MyNode)
    (fp : Option String) (st : Option CState) (ctp : Option String) :
    assignN p (.mk i l t cs fp st ctp) =
      .mk i l t (assignF (p ++ "/" ++ l) cs) fp st (some (p ++ "/" ++ l)) := by
  rw [assignN]

theorem assignF_eq_map (p : String) : ∀ l : List MyNode, assignF p l = l.map (assignN p)
  | [] => rfl
  | n :: rest => by rw [assignF, assignF_eq_map p rest, List.map_cons]

theorem flat_assignN (p : String) (n : MyNode) : flat (assignN p n) = flat n := by
  cases n; rw [assignN_mk]; rfl

theorem assignN_ty (p : String) (n : MyNode) : (assignN p n).ty = n.ty := by
  cases n; rw [assignN_mk]; rfl

theorem assignN_label (p : String) (n : MyNode) : (assignN p n).label = n.label := by
  cases n; rw [assignN_mk]; rfl

theorem flatM_assignF : ∀ l : List MyNode, ∀ p, flatM (assignF p l) = flatM l := by
  have key : ∀ n : MyNode, ∀ p, flatSubM (assignN p n) = flatSubM n := by
    intro n
    induction n using forest_ind_node with
    | _ i l t cs fp st ctp ih =>
      intro p
      rw [assignN_mk, flatSubM_eq, flatSubM_eq]
      simp only [MyNode.children_mk, flat_mk]
      have : ∀ rest : List MyNode, (∀ c ∈ rest, ∀ q, flatSubM (assignN q c) = flatSubM c) →
          ∀ q, flatM (assignF q rest) = flatM rest := by
        intro rest h
        induction rest with
        | nil => intro q; rfl
        | cons m ms ihm =>
          intro q
          rw [assignF, flatM_cons, flatM_cons, h m (List.mem_cons_self m ms) q,
            ihm fun c hc => h c (List.mem_cons_of_mem m hc)]
      rw [this cs ih (p ++ "/" ++ l)]
  intro l p
  induction l with
  | nil => rfl
  | cons n rest ih =>
    rw [assignF, flatM_cons, flatM_cons, key n p, ih]

theorem cpSubM_assignN : ∀ n : MyNode, ∀ p, cpSubM (assignN p n) = cpSubM n := by
  intro n
  induction n using forest_ind_node with
  | _ i l t cs fp st ctp ih =>
    intro p
    rw [assignN_mk]
    simp only [cpSubM, childPairsN_mk]
    have hmap : (assignF (p ++ "/" ++ l) cs).map (fun c => (i, flat c))
        = cs.map (fun c => (i, flat c)) := by
      rw [assignF_eq_map, List.map_map]
      refine List.map_congr_left ?_
      intro c _
      simp [Function.comp, flat_assignN]
    have hcp : ∀ rest : List MyNode, (∀ c ∈ rest, ∀ q, cpSubM (assignN q c) = cpSubM c) →
        ∀ q, (childPairsF (assignF q rest) : Multiset (String × FlatNode))
          = (childPairsF rest : Multiset (String × FlatNode)) := by
      intro rest h
      induction rest with
      | nil => intro q; rfl
      | cons m ms ihm =>
        intro q
        rw [assignF, childPairsF_cons, childPairsF_cons]
        rw [← Multiset.coe_add, ← Multiset.coe_add]
        have h1 := h m (List.mem_cons_self m ms) q
        simp only [cpSubM] at h1
        rw [h1, ihm fun c hc => h c (List.mem_cons_of_mem m hc)]
    rw [← Multiset.coe_add, ← Multiset.coe_add, hmap, hcp cs ih (p ++ "/" ++ l)]

theorem cpM_assignF (l : List MyNode) (p : String) : cpM (assignF p l) = cpM l := by
  induction l with
  | nil => rfl
  | cons n rest ih =>
    rw [assignF, cpM_cons, cpM_cons, cpSubM_assignN n p, ih]

theorem rsortedN_assignN : ∀ n : MyNode, RSortedN n → ∀ p, RSortedN (assignN p n) := by
  intro n
  induction n using forest_ind_node with
  | _ i l t cs fp st ctp ih =>
    intro hs p
    rw [RSortedN_mk] at hs
    rw [assignN_mk, RSortedN_mk]
    constructor
    · rw [assignF_eq_map]
      refine List.Pairwise.map _ ?_ hs.1
      intro a b hab
      rw [nodeLe_congr (assignN_ty _ a).symm (assignN_label _ a).symm (assignN_ty _ b).symm
        (assignN_label _ b).symm] at hab
      exact hab
    · rw [RSortedAll_iff]
      intro x hx
      rw [assignF_eq_map] at hx
      rcases List.mem_map.1 hx with ⟨c, hc, hcx⟩
      subst hcx
      exact ih c hc ((RSortedAll_iff cs).1 hs.2 c hc) _

theorem rsortedF_assignF {l : List MyNode} (h : RSortedF l) (p : String) :
    RSortedF (assignF p l) := by
  constructor
  · rw [assignF_eq_map]
    refine List.Pairwise.map _ ?_ h.1
    intro a b hab
    rw [nodeLe_congr (assignN_ty _ a).symm (assignN_label _ a).symm (assignN_ty _ b).symm
      (assignN_label _ b).symm] at hab
    exact hab
  · rw [RSortedAll_iff]
    intro x hx
    rw [assignF_eq_map] at hx
    rcases List.mem_map.1 hx with ⟨c, hc, hcx⟩
    subst hcx
    exact rsortedN_assignN c ((RSortedAll_iff l).1 h.2 c hc) p

/-! ### Save-cycle lemmas -/

theorem saveForest_eq (d : List MyNode) :
    saveForest d = sortNodesRecursive (assignF "" (sortNodesRecursive d)) := rfl

theorem saveForest_eq_assign (d : List MyNode) :
    saveForest d = assignF "" (sortNodesRecursive d) := by
  rw [saveForest_eq]
  exact sortNodesRecursive_of_rsorted (rsortedF_assignF (sortNodesRecursive_rsorted d) "")

theorem rsortedF_saveForest (d : List MyNode) : RSortedF (saveForest d) := by
  rw [saveForest_eq]
  exact sortNodesRecursive_rsorted _

theorem flatM_saveForest (d : List MyNode) : flatM (saveForest d) = flatM d := by
  rw [saveForest_eq, flatM_sortNodesRecursive, flatM_assignF, flatM_sortNodesRecursive]

theorem cpM_saveForest (d : List MyNode) : cpM (saveForest d) = cpM d := by
  rw [saveForest_eq, cpM_sortNodesRecursive, cpM_assignF, cpM_sortNodesRecursive]

theorem saveState_data (d : List MyNode) (ctr : Nat) : (saveState d ctr).data = saveForest d := rfl

theorem saveState_ctr (d : List MyNode) (ctr : Nat) : (saveState d ctr).ctr = ctr := rfl

/-! ### Bridging the sorted predicate to the spec ordering -/

theorem strLeB_localeCompare {a b : String} (h : strLeB a b = true) : localeCompare a b ≤ 0 := by
  unfold localeCompare
  rw [if_pos h]
  split <;> omega

theorem nodeLe_imp {a b : MyNode} (h : nodeLe a b = true) :
    (a.ty = .file → b.ty = .file) ∧ (a.ty = b.ty → localeCompare a.label b.label ≤ 0) := by
  rw [nodeLe_eq] at h
  cases ha : a.ty <;> cases hb : b.ty <;> rw [ha, hb] at h <;>
    simp_all [strLeB_localeCompare]

theorem OrderedAllF_iff : ∀ l : List MyNode, OrderedAllF l ↔ ∀ n ∈ l, OrderedN n
  | [] => by rw [OrderedAllF]; simp
  | n :: rest => by
    rw [OrderedAllF, OrderedAllF_iff rest]
    constructor
    · rintro ⟨h1, h2⟩ c hc
      rcases List.mem_cons.1 hc with h | h
      · subst h; exact h1
      · exact h2 c h
    · intro h
      exact ⟨h n (List.mem_cons_self n rest), fun c hc => h c (List.mem_cons_of_mem n hc)⟩

theorem OrderedN_iff (n : MyNode) :
    OrderedN n ↔ (n.children.Pairwise fun a b =>
      (a.ty = .file → b.ty = .file) ∧ (a.ty = b.ty → localeCompare a.label b.label ≤ 0))
      ∧ OrderedAllF n.children := by
  cases n; rw [OrderedN]; rfl

theorem orderedN_of_rsortedN : ∀ n : MyNode, RSortedN n → OrderedN n := by
  intro n
  induction n using forest_ind_node with
  | _ i l t cs fp st ctp ih =>
    intro hs
    rw [RSortedN_mk] at hs
    rw [OrderedN]
    refine ⟨hs.1.imp nodeLe_imp, ?_⟩
    rw [OrderedAllF_iff]
    intro c hc
    exact ih c hc ((RSortedAll_iff cs).1 hs.2 c hc)

theorem orderedForest_of_rsortedF {l : List MyNode} (h : RSortedF l) : OrderedForest l := by
  refine ⟨h.1.imp nodeLe_imp, ?_⟩
  rw [OrderedAllF_iff]
  intro c hc
  exact orderedN_of_rsortedN c ((RSortedAll_iff l).1 h.2 c hc)

theorem orderedForest_saveForest (d : List MyNode) : OrderedForest (saveForest d) :=
  orderedForest_of_rsortedF (rsortedF_saveForest d)

theorem orderedForest_sortNodesRecursive (d : List MyNode) :
    OrderedForest (sortNodesRecursive d) :=
  orderedForest_of_rsortedF (sortNodesRecursive_rsorted d)

/-! ### Generic lemmas about deferred-save folds -/

theorem foldl_flag_mono {α : Type} (step : (List MyNode × Bool) → α → (List MyNode × Bool))
    (hmono : ∀ acc x, acc.2 = true → (step acc x).2 = true) :
    ∀ (xs : List α) (acc : List MyNode × Bool), acc.2 = true → (xs.foldl step acc).2 = true := by
  intro xs
  induction xs with
  | nil => intro acc h; exact h
  | cons x rest ih =>
    intro acc h
    exact ih (step acc x) (hmono acc x h)

theorem foldl_flag_false {α : Type} (step : (List MyNode × Bool) → α → (List MyNode × Bool))
    (hstep : ∀ acc x, (step acc x).2 = false → step acc x = acc)
    (hmono : ∀ acc x, acc.2 = true → (step acc x).2 = true) :
    ∀ (xs : List α) (acc : List MyNode × Bool), (xs.foldl step acc).2 = false →
      xs.foldl step acc = acc := by
  intro xs
  induction xs with
  | nil => intro acc _; rfl
  | cons x rest ih =>
    intro acc h
    rw [List.foldl_cons] at h ⊢
    by_cases hx : (step acc x).2 = true
    · rw [foldl_flag_mono step hmono rest (step acc x) hx] at h
      exact absurd h (by simp)
    · have hx2 : (step acc x).2 = false := by
        cases hh : (step acc x).2
        · rfl
        · exact absurd hh hx
      rw [hstep acc x hx2] at h ⊢
      exact ih acc h

/-! ### Change-flag lemmas for the batched operations -/

theorem moveOne_false {target : Option MyNode} {acc : List MyNode × Bool} {s : MyNode}
    (h : (moveOne target acc s).2 = false) : moveOne target acc s = acc := by
  unfold moveOne at h ⊢
  by_cases hv : isValidMove s target = false
  · simp [hv]
  · simp only [hv, if_false] at h ⊢
    cases hr : removeRecursive s.id acc.1 with
    | none => simp [hr]
    | some p =>
      simp only [hr] at h
      cases target with
      | none => simp at h
      | some t => by_cases hg : t.ty = NodeType.group <;> simp [hg] at h

theorem moveOne_mono {target : Option MyNode} {acc : List MyNode × Bool} {s : MyNode}
    (h : acc.2 = true) : (moveOne target acc s).2 = true := by
  unfold moveOne
  by_cases hv : isValidMove s target = false
  · simp [hv, h]
  · simp only [hv, if_false]
    cases hr : removeRecursive s.id acc.1 with
    | none => simp [h]
    | some p =>
      cases target with
      | none => simp
      | some t => by_cases hg : t.ty = NodeType.group <;> simp [hg]

theorem moveNodes_false {sources : List MyNode} {target : Option MyNode} {data : List MyNode}
    (h : (moveNodes sources target data).2 = false) :
    (moveNodes sources target data).1 = data := by
  unfold moveNodes at h ⊢
  rw [foldl_flag_false (moveOne target) (fun _ _ hh => moveOne_false hh)
    (fun _ _ hh => moveOne_mono hh) sources (data, false) h]

theorem handleFileRename_step_false (st : SysState) :
    ∀ (acc : List MyNode × Bool) (f : String × String),
      ((match st.pidx f.1 with
        | none => acc
        | some tn => ((updateByIdF tn.id (renameTarget f.1 f.2) acc.1).getD acc.1, true)).2 = false) →
      (match st.pidx f.1 with
        | none => acc
        | some tn => ((updateByIdF tn.id (renameTarget f.1 f.2) acc.1).getD acc.1, true)) = acc := by
  intro acc f h
  split at h
  · rfl
  · simp_all

theorem handleFileRename_step_mono (st : SysState) :
    ∀ (acc : List MyNode × Bool) (f : String × String), acc.2 = true →
      ((match st.pidx f.1 with
        | none => acc
        | some tn => ((updateByIdF tn.id (renameTarget f.1 f.2) acc.1).getD acc.1, true)).2 = true) := by
  intro acc f h
  split
  · exact h
  · rfl

theorem handleFileDelete_step_false (st : SysState) :
    ∀ (acc : List MyNode × Bool) (p : String),
      ((match st.pidx p with
        | none => acc
        | some n =>
          ((match removeRecursive n.id acc.1 with
            | some q => q.2
            | none => acc.1), true)).2 = false) →
      (match st.pidx p with
        | none => acc
        | some n =>
          ((match removeRecursive n.id acc.1 with
            | some q => q.2
            | none => acc.1), true)) = acc := by
  intro acc p h
  split at h
  · rfl
  · simp_all

theorem handleFileDelete_step_mono (st : SysState) :
    ∀ (acc : List MyNode × Bool) (p : String), acc.2 = true →
      ((match st.pidx p with
        | none => acc
        | some n =>
          ((match removeRecursive n.id acc.1 with
            | some q => q.2
            | none => acc.1), true)).2 = true) := by
  intro acc p h
  split
  · exact h
  · rfl

theorem handleFileRename_data (files : List (String × String)) (st : SysState) :
    (handleFileRename files st).data = st.data ∨
      ∃ d, (handleFileRename files st).data = saveForest d := by
  unfold handleFileRename
  dsimp only
  split
  · exact Or.inr ⟨_, rfl⟩
  · next hfalse =>
    left
    have h2 : (files.foldl (fun acc f =>
        match st.pidx f.1 with
        | none => acc
        | some tn => ((updateByIdF tn.id (renameTarget f.1 f.2) acc.1).getD acc.1, true))
        (st.data, false)) = (st.data, false) := by
      refine foldl_flag_false _ (handleFileRename_step_false st) (handleFileRename_step_mono st)
        files (st.data, false) ?_
      simpa using hfalse
    simp [h2]

theorem handleFileDelete_data (paths : List String) (st : SysState) :
    (handleFileDelete paths st).data = st.data ∨
      ∃ d, (handleFileDelete paths st).data = saveForest d := by
  unfold handleFileDelete
  dsimp only
  split
  · exact Or.inr ⟨_, rfl⟩
  · next hfalse =>
    left
    have h2 : (paths.foldl (fun acc p =>
        match st.pidx p with
        | none => acc
        | some n =>
          ((match removeRecursive n.id acc.1 with
            | some q => q.2
            | none => acc.1), true)) (st.data, false)) = (st.data, false) := by
      refine foldl_flag_false _ (handleFileDelete_step_false st) (handleFileDelete_step_mono st)
        paths (st.data, false) ?_
      simpa using hfalse
    simp [h2]

/-! ### Claim C9 -/

/-- C9: For every forest, applying the Sort Engine (`sortNodesRecursive`)
twice in a row yields a forest identical to applying it once:
`sortNodesRecursive` is idempotent. -/
theorem claim_C9 (l : List MyNode) :
    sortNodesRecursive (sortNodesRecursive l) = sortNodesRecursive l :=
  sortNodesRecursive_of_rsorted (sortNodesRecursive_rsorted l)

/-! ### Claim C3 -/

/-- C3: After every operation of the provider (add, remove, move,
import, rename, file-event reconciliation, and also the expand/collapse
toggles) — given that the forest satisfied the canonical order before,
as every forest produced by a save cycle does — every sibling list has
all group nodes positioned before all file nodes, and same-type siblings
have non-decreasing labels under locale comparison.  Operations that
mutate the forest end in a save cycle, which sorts unconditionally; the
hypothesis is only needed for the no-op paths (e.g. removing an absent
node), which leave the forest untouched. -/
theorem claim_C3 (op : Op) (st : SysState) (h : OrderedForest st.data) :
    OrderedForest (applyOp op st).data := by
  cases op with
  | opAddGroup label parent =>
    simp only [applyOp, addGroup]
    rw [saveState_data]
    exact orderedForest_saveForest _
  | opAddFile ex path parent =>
    simp only [applyOp, addFile]
    split
    · exact h
    · rw [saveState_data]
      exact orderedForest_saveForest _
  | opRenameNode node newName =>
    simp only [applyOp, renameNode]
    rw [saveState_data]
    exact orderedForest_saveForest _
  | opRemoveNode node =>
    simp only [applyOp, removeNode]
    split
    · rw [saveState_data]
      exact orderedForest_saveForest _
    · exact h
  | opMoveNodes sources target =>
    simp only [applyOp, moveNodesOp]
    split
    · rw [saveState_data]
      exact orderedForest_saveForest _
    · next hfalse =>
      have h2 : (moveNodes sources target st.data).1 = st.data :=
        moveNodes_false (by simpa using hfalse)
      simpa [h2] using h
  | opImportDirectory ex dirPath entries parent =>
    simp only [applyOp, importDirectory]
    split
    · exact h
    · rw [saveState_data]
      exact orderedForest_saveForest _
  | opHandleFileRename files =>
    have hd := handleFileRename_data files st
    simp only [applyOp]
    rcases hd with hd | ⟨d, hd⟩
    · rw [hd]; exact h
    · rw [hd]; exact orderedForest_saveForest d
  | opHandleFileDelete paths =>
    have hd := handleFileDelete_data paths st
    simp only [applyOp]
    rcases hd with hd | ⟨d, hd⟩
    · rw [hd]; exact h
    · rw [hd]; exact orderedForest_saveForest d
  | opCollapseRecursive node =>
    simp only [applyOp, collapseRecursive]
    exact orderedForest_sortNodesRecursive _
  | opExpandRecursive node =>
    simp only [applyOp, expandRecursive]
    exact orderedForest_sortNodesRecursive _

theorem claim_C3_witness :
    OrderedForest ([] : List MyNode) ∧
      OrderedForest (applyOp (.opAddFile [] "/tmp/a.txt" none)
        ⟨[], 0, emptyIndex, emptyIndex⟩).data := by
  have h0 : OrderedForest ([] : List MyNode) := by
    refine ⟨List.Pairwise.nil, ?_⟩
    rw [OrderedAllF]
    trivial
  exact ⟨h0, claim_C3 _ _ h0⟩

/-! ### Claim C5 -/

/-- C5: Importing a directory `/data/root` containing `a.txt`,
`sub/b.txt` and `.DS_Store`, with an empty exclusion-suffix
configuration, yields exactly one group node for the root directory
containing one nested group labeled "sub" with the single file node
"b.txt", plus the file node "a.txt" at the root group's top level, and
no node at all for `.DS_Store`. -/
theorem claim_C5 :
    shapeF (importDirectory [] "/data/root"
        [.file "a.txt", .dir "sub" [.file "b.txt"], .file ".DS_Store"]
        none ⟨[], 0, emptyIndex, emptyIndex⟩).data
      = [Shape.group "root" [Shape.group "sub" [Shape.file "b.txt"], Shape.file "a.txt"]] :=
  rfl

/-! ### Descendant-check lemmas and claim C2 -/

mutual
theorem isDescendant_iff : ∀ (n t : MyNode), isDescendant n t = true ↔ t ∈ allNodesF n.children
  | .mk i l ty cs fp st ctp, t => by
    rw [isDescendant]
    simp only [MyNode.children_mk]
    exact isDescForest_iff cs t

theorem isDescForest_iff : ∀ (l : List MyNode) (t : MyNode),
    isDescForest l t = true ↔ t ∈ allNodesF l
  | [], t => by rw [isDescForest]; simp
  | c :: rest, t => by
    rw [isDescForest, allNodesF_cons, subtreeN_eq]
    simp only [Bool.or_eq_true, decide_eq_true_eq, List.mem_append, List.mem_cons]
    rw [isDescendant_iff c t, isDescForest_iff rest t]
    constructor
    · rintro ((h | h) | h)
      · exact Or.inl (Or.inl h.symm)
      · exact Or.inl (Or.inr h)
      · exact Or.inr h
    · rintro ((h | h) | h)
      · exact Or.inl (Or.inl h.symm)
      · exact Or.inl (Or.inr h)
      · exact Or.inr h
end

theorem isValidMove_false_of {s t : MyNode}
    (h : s = t ∨ t ∈ allNodesF s.children) : isValidMove s (some t) = false := by
  unfold isValidMove
  dsimp only
  rcases h with h | h
  · rw [if_pos h]
  · by_cases he : s = t
    · rw [if_pos he]
    · rw [if_neg he, (isDescendant_iff s t).2 h]
      rfl

theorem moveNodes_all_invalid {sources : List MyNode} {target : Option MyNode}
    (h : ∀ s ∈ sources, isValidMove s target = false) (data : List MyNode) :
    moveNodes sources target data = (data, false) := by
  unfold moveNodes
  induction sources with
  | nil => rfl
  | cons s rest ih =>
    rw [List.foldl_cons]
    have h1 : moveOne target (data, false) s = (data, false) := by
      unfold moveOne
      rw [if_pos (h s (List.mem_cons_self s rest))]
    rw [h1]
    exact ih fun x hx => h x (List.mem_cons_of_mem s hx)

/-- C2: For every set of source nodes and a target node such that each
source is rejected by the cycle check — the target is the source itself
or a descendant of the source (reachable through children links) — every
such move is individually invalid, `moveNodes` leaves the forest exactly
as it was with the `isChanged` flag false, and consequently the whole
operation neither persists nor fires a refresh: the provider state is
unchanged. -/
theorem claim_C2 (sources : List MyNode) (t : MyNode) (st : SysState)
    (h : ∀ s ∈ sources, s = t ∨ t ∈ allNodesF s.children) :
    (∀ s ∈ sources, isValidMove s (some t) = false)
      ∧ moveNodes sources (some t) st.data = (st.data, false)
      ∧ moveNodesOp sources (some t) st = st := by
  have h1 : ∀ s ∈ sources, isValidMove s (some t) = false :=
    fun s hs => isValidMove_false_of (h s hs)
  have h2 : moveNodes sources (some t) st.data = (st.data, false) :=
    moveNodes_all_invalid h1 st.data
  refine ⟨h1, h2, ?_⟩
  unfold moveNodesOp
  rw [h2]
  rfl

theorem claim_C2_witness :
    (∀ s ∈ [MyNode.mk "a" "A" .group
        [.mk "b" "B" .group [] none none none] none none none],
      s = MyNode.mk "b" "B" .group [] none none none
        ∨ (MyNode.mk "b" "B" .group [] none none none) ∈ allNodesF s.children)
    ∧ moveNodes [MyNode.mk "a" "A" .group [.mk "b" "B" .group [] none none none] none none none]
        (some (.mk "b" "B" .group [] none none none))
        [MyNode.mk "a" "A" .group [.mk "b" "B" .group [] none none none] none none none]
      = ([MyNode.mk "a" "A" .group [.mk "b" "B" .group [] none none none] none none none],
        false) := by
  have h := claim_C2
    [MyNode.mk "a" "A" .group [.mk "b" "B" .group [] none none none] none none none]
    (.mk "b" "B" .group [] none none none)
    ⟨[MyNode.mk "a" "A" .group [.mk "b" "B" .group [] none none none] none none none],
      0, emptyIndex, emptyIndex⟩
    (by decide)
  exact ⟨by decide, h.2.1⟩

/-! ### Multiset bookkeeping helpers -/

theorem flatSubM_sum (n : MyNode) : flatSubM n = {flat n} + flatM n.children := by
  rw [flatSubM_eq, Multiset.singleton_add]

theorem flatM_map_id (l : List MyNode) : (flatM l).map FlatNode.id = idsM l := by
  simp only [flatM, flatF, idsM, idsF, Multiset.map_coe, List.map_map]
  rfl

theorem flatSubM_map_id (n : MyNode) :
    (flatSubM n).map FlatNode.id = (subIds n : List String) := by
  simp only [flatSubM, subIds, Multiset.map_coe, List.map_map]
  rfl

theorem mem_idsF_of_flatM_eq {l l' : List MyNode} {s : Multiset FlatNode}
    (h : flatM l = s + flatM l') {x : String} (hx : x ∈ idsF l') : x ∈ idsF l := by
  have h2 : (flatM l).map FlatNode.id = s.map FlatNode.id + (flatM l').map FlatNode.id := by
    rw [h, Multiset.map_add]
  rw [flatM_map_id, flatM_map_id] at h2
  have hx2 : x ∈ idsM l' := Multiset.mem_coe.2 hx
  have h3 : x ∈ idsM l := by
    rw [h2]
    exact Multiset.mem_add.2 (Or.inr hx2)
  exact Multiset.mem_coe.1 h3

theorem strictIds_mk (i l : String) (t : NodeType) (cs : List MyNode)
    (fp : Option String) (st : Option CState) (ctp : Option String) :
    strictIds (.mk i l t cs fp st ctp) = idsF cs := rfl

theorem mem_idsF_of_mem_allNodesF {a : MyNode} {l : List MyNode} (h : a ∈ allNodesF l) :
    a.id ∈ idsF l := List.mem_map.2 ⟨a, h, rfl⟩

/-! ### Extraction lemmas (`removeRecursive`) -/

theorem removeAt_spec :
    ∀ {l : List MyNode} {i : String} {m : MyNode} {l' : List MyNode},
      removeAt i l = some (m, l') →
      m.id = i ∧ m ∈ l ∧ flatM l = flatSubM m + flatM l'
        ∧ (∀ a ∈ allNodesF l', a ∈ allNodesF l) := by
  intro l
  induction l with
  | nil =>
    intro i m l' h
    rw [removeAt] at h
    exact Option.noConfusion h
  | cons n rest ih =>
    intro i m l' h
    rw [removeAt] at h
    split at h
    · next heq =>
      rw [Option.some.injEq, Prod.mk.injEq] at h
      rcases h with ⟨h1, h2⟩
      subst h1; subst h2
      exact ⟨heq, List.mem_cons_self n rest, flatM_cons n rest,
        fun a ha => by rw [allNodesF_cons]; exact List.mem_append_right _ ha⟩
    · next heq =>
      rcases ho : removeAt i rest with _ | ⟨m₀, r₀⟩
      · rw [ho] at h; exact Option.noConfusion h
      · rw [ho] at h
        simp only [Option.map_some', Option.some.injEq, Prod.mk.injEq] at h
        rcases h with ⟨h1, h2⟩
        rcases ih ho with ⟨hid, hmem, hflat, hsub⟩
        subst h1; subst h2
        refine ⟨hid, List.mem_cons_of_mem n hmem, ?_, ?_⟩
        · rw [flatM_cons, flatM_cons, hflat]
          exact add_left_comm _ _ _ 
        · intro a ha
          rw [allNodesF_cons] at ha ⊢
          rcases List.mem_append.1 ha with h1 | h2
          · exact List.mem_append_left _ h1
          · exact List.mem_append_right _ (hsub a h2)

mutual
theorem extractN_spec :
    ∀ {n : MyNode} {i : String} {m : MyNode} {n' : MyNode},
      extractN i n = some (m, n') →
      m.id = i ∧ m ∈ allNodesF n.children ∧ flatSubM n = flatSubM m + flatSubM n'
        ∧ flat n' = flat n
        ∧ (∀ a ∈ subtreeN n', ∃ a₀ ∈ subtreeN n, a₀.id = a.id
            ∧ ∀ x ∈ strictIds a, x ∈ strictIds a₀)
  | .mk ni nl nt cs nfp nst nctp, i, m, n', h => by
    rw [extractN] at h
    split at h
    · next p heq =>
      rcases p with ⟨m₀, cs'⟩
      rw [Option.some.injEq, Prod.mk.injEq] at h
      rcases h with ⟨h1, h2⟩
      rcases removeAt_spec heq with ⟨hid, hmem, hflat, hsub⟩
      subst h1
      subst h2
      simp only [MyNode.children_mk]
      refine ⟨hid, mem_of_mem_allNodesF hmem, ?_, rfl, ?_⟩
      · rw [flatSubM_sum (MyNode.mk ni nl nt cs nfp nst nctp),
          flatSubM_sum (MyNode.mk ni nl nt cs' nfp nst nctp)]
        simp only [MyNode.children_mk, flat_mk]
        rw [hflat]
        exact add_left_comm _ _ _ 
      · intro a ha
        rw [subtreeN_eq] at ha
        rcases List.mem_cons.1 ha with h1 | h2
        · subst h1
          refine ⟨.mk ni nl nt cs nfp nst nctp, self_mem_subtreeN _, rfl, ?_⟩
          intro x hx
          simp only [MyNode.children_mk, strictIds_mk] at hx ⊢
          rcases List.mem_map.1 hx with ⟨b, hb, hbx⟩
          exact List.mem_map.2 ⟨b, hsub b hb, hbx⟩
        · simp only [MyNode.children_mk] at h2
          refine ⟨a, ?_, rfl, fun x hx => hx⟩
          rw [subtreeN_eq]
          simp only [MyNode.children_mk]
          exact List.mem_cons_of_mem _ (hsub a h2)
    · next heq =>
      split at h
      · next p heq2 =>
        rcases p with ⟨m₀, cs'⟩
        rw [Option.some.injEq, Prod.mk.injEq] at h
        rcases h with ⟨h1, h2⟩
        rcases extractF_spec heq2 with ⟨hid, hmem, hflat, hcorr⟩
        subst h1
        subst h2
        simp only [MyNode.children_mk]
        refine ⟨hid, hmem, ?_, rfl, ?_⟩
        · rw [flatSubM_sum (MyNode.mk ni nl nt cs nfp nst nctp),
            flatSubM_sum (MyNode.mk ni nl nt cs' nfp nst nctp)]
          simp only [MyNode.children_mk, flat_mk]
          rw [hflat]
          exact add_left_comm _ _ _ 
        · intro a ha
          rw [subtreeN_eq] at ha
          rcases List.mem_cons.1 ha with h1 | h2
          · subst h1
            refine ⟨.mk ni nl nt cs nfp nst nctp, self_mem_subtreeN _, rfl, ?_⟩
            intro x hx
            simp only [MyNode.children_mk, strictIds_mk] at hx ⊢
            exact mem_idsF_of_flatM_eq hflat hx
          · simp only [MyNode.children_mk] at h2
            rcases hcorr a h2 with ⟨a₀, ha₀, hida, hxsub⟩
            refine ⟨a₀, ?_, hida, hxsub⟩
            rw [subtreeN_eq]
            simp only [MyNode.children_mk]
            exact List.mem_cons_of_mem _ ha₀
      · exact Option.noConfusion h

theorem extractF_spec :
    ∀ {l : List MyNode} {i : String} {m : MyNode} {l' : List MyNode},
      extractF i l = some (m, l') →
      m.id = i ∧ m ∈ allNodesF l ∧ flatM l = flatSubM m + flatM l'
        ∧ (∀ a ∈ allNodesF l', ∃ a₀ ∈ allNodesF l, a₀.id = a.id
            ∧ ∀ x ∈ strictIds a, x ∈ strictIds a₀)
  | [], i, m, l', h => by
    rw [extractF] at h
    exact Option.noConfusion h
  | n :: rest, i, m, l', h => by
    rw [extractF] at h
    split at h
    · next p heq =>
      rcases p with ⟨m₀, n₀⟩
      rw [Option.some.injEq, Prod.mk.injEq] at h
      rcases h with ⟨h1, h2⟩
      rcases extractN_spec heq with ⟨hid, hmem, hflat, hfl, hcorr⟩
      subst h1
      subst h2
      refine ⟨hid, ?_, ?_, ?_⟩
      · rw [allNodesF_cons, subtreeN_eq]
        exact List.mem_append_left _ (List.mem_cons_of_mem _ hmem)
      · rw [flatM_cons, flatM_cons, hflat]
        exact add_assoc _ _ _
      · intro a ha
        rw [allNodesF_cons] at ha
        rcases List.mem_append.1 ha with h1 | h2
        · rcases hcorr a h1 with ⟨a₀, ha₀, hida, hxsub⟩
          refine ⟨a₀, ?_, hida, hxsub⟩
          rw [allNodesF_cons]
          exact List.mem_append_left _ ha₀
        · refine ⟨a, ?_, rfl, fun x hx => hx⟩
          rw [allNodesF_cons]
          exact List.mem_append_right _ h2
    · next heq =>
      rcases ho : extractF i rest with _ | ⟨m₀, r₀⟩
      · rw [ho] at h; exact Option.noConfusion h
      · rw [ho] at h
        simp only [Option.map_some', Option.some.injEq, Prod.mk.injEq] at h
        rcases h with ⟨h1, h2⟩
        rcases extractF_spec ho with ⟨hid, hmem, hflat, hcorr⟩
        subst h1
        subst h2
        refine ⟨hid, ?_, ?_, ?_⟩
        · rw [allNodesF_cons]
          exact List.mem_append_right _ hmem
        · rw [flatM_cons, flatM_cons, hflat]
          exact add_left_comm _ _ _ 
        · intro a ha
          rw [allNodesF_cons] at ha
          rcases List.mem_append.1 ha with h1 | h2
          · refine ⟨a, ?_, rfl, fun x hx => hx⟩
            rw [allNodesF_cons]
            exact List.mem_append_left _ h1
          · rcases hcorr a h2 with ⟨a₀, ha₀, hida, hxsub⟩
            refine ⟨a₀, ?_, hida, hxsub⟩
            rw [allNodesF_cons]
            exact List.mem_append_right _ ha₀
end

theorem removeRecursive_spec {l : List MyNode} {i : String} {m : MyNode} {l' : List MyNode}
    (h : removeRecursive i l = some (m, l')) :
    m.id = i ∧ m ∈ allNodesF l ∧ flatM l = flatSubM m + flatM l'
      ∧ (∀ a ∈ allNodesF l', ∃ a₀ ∈ allNodesF l, a₀.id = a.id
          ∧ ∀ x ∈ strictIds a, x ∈ strictIds a₀) := by
  rw [removeRecursive] at h
  split at h
  · next p heq =>
    rcases p with ⟨m₀, l₀⟩
    rw [Option.some.injEq, Prod.mk.injEq] at h
    rcases h with ⟨h1, h2⟩
    rcases removeAt_spec heq with ⟨hid, hmem, hflat, hsub⟩
    subst h1
    subst h2
    exact ⟨hid, mem_of_mem_allNodesF hmem, hflat,
      fun a ha => ⟨a, hsub a ha, rfl, fun x hx => hx⟩⟩
  · exact extractF_spec h

/-! ### Update-by-id lemmas -/

theorem subIds_eq (n : MyNode) : subIds n = n.id :: idsF n.children := by
  cases n
  simp only [subIds, subtreeN_eq, List.map_cons, idsF]

theorem flatM_singleton (n : MyNode) : flatM [n] = flatSubM n := by
  simp only [flatM, flatF, flatSubM, allNodesF_cons, allNodesF_nil, List.append_nil]

mutual
theorem updateByIdN_spec {f : MyNode → MyNode} :
    ∀ {n : MyNode} {i : String} {n' : MyNode},
      updateByIdN i f n = some n' →
      ∃ n₀, n₀ ∈ subtreeN n ∧ n₀.id = i
        ∧ ∃ C : Multiset FlatNode, flatSubM n = C + flatSubM n₀
          ∧ flatSubM n' = C + flatSubM (f n₀)
  | .mk ni nl nt cs nfp nst nctp, i, n', h => by
    rw [updateByIdN] at h
    split at h
    · next heq =>
      rw [Option.some.injEq] at h
      subst h
      refine ⟨.mk ni nl nt cs nfp nst nctp, self_mem_subtreeN _, heq, 0, ?_, ?_⟩
      · rw [zero_add]
      · rw [zero_add]
    · next heq =>
      split at h
      · next cs' heq2 =>
        rw [Option.some.injEq] at h
        subst h
        rcases updateByIdF_spec heq2 with ⟨n₀, hmem, hid, C, hc1, hc2⟩
        refine ⟨n₀, ?_, hid, {flat (MyNode.mk ni nl nt cs nfp nst nctp)} + C, ?_, ?_⟩
        · rw [subtreeN_eq]
          simp only [MyNode.children_mk]
          exact List.mem_cons_of_mem _ hmem
        · rw [flatSubM_sum]
          simp only [MyNode.children_mk]
          rw [hc1, add_assoc]
        · rw [flatSubM_sum]
          simp only [MyNode.children_mk, flat_mk]
          rw [hc2, add_assoc]
      · exact Option.noConfusion h

theorem updateByIdF_spec {f : MyNode → MyNode} :
    ∀ {l : List MyNode} {i : String} {l' : List MyNode},
      updateByIdF i f l = some l' →
      ∃ n₀, n₀ ∈ allNodesF l ∧ n₀.id = i
        ∧ ∃ C : Multiset FlatNode, flatM l = C + flatSubM n₀
          ∧ flatM l' = C + flatSubM (f n₀)
  | [], i, l', h => by
    rw [updateByIdF] at h
    exact Option.noConfusion h
  | n :: rest, i, l', h => by
    rw [updateByIdF] at h
    split at h
    · next n₁ heq =>
      rw [Option.some.injEq] at h
      subst h
      rcases updateByIdN_spec heq with ⟨n₀, hmem, hid, C, hc1, hc2⟩
      refine ⟨n₀, ?_, hid, C + flatM rest, ?_, ?_⟩
      · rw [allNodesF_cons]
        exact List.mem_append_left _ hmem
      · rw [flatM_cons, hc1, add_right_comm]
      · rw [flatM_cons, hc2, add_right_comm]
    · next heq =>
      rcases ho : updateByIdF i f rest with _ | r₀
      · rw [ho] at h; exact Option.noConfusion h
      · rw [ho] at h
        simp only [Option.map_some', Option.some.injEq] at h
        subst h
        rcases updateByIdF_spec ho with ⟨n₀, hmem, hid, C, hc1, hc2⟩
        refine ⟨n₀, ?_, hid, flatSubM n + C, ?_, ?_⟩
        · rw [allNodesF_cons]
          exact List.mem_append_right _ hmem
        · rw [flatM_cons, hc1, add_assoc]
        · rw [flatM_cons, hc2, add_assoc]
end

mutual
theorem updateByIdN_isSome {f : MyNode → MyNode} :
    ∀ {n : MyNode} {i : String}, (updateByIdN i f n).isSome = true ↔ i ∈ subIds n
  | .mk ni nl nt cs nfp nst nctp, i => by
    rw [updateByIdN, subIds_eq]
    simp only [MyNode.children_mk, MyNode.id_mk, List.mem_cons]
    split
    · next heq => simp [heq.symm]
    · next heq =>
      have hne : ¬ i = ni := fun hcontra => heq hcontra.symm
      rcases ho : updateByIdF i f cs with _ | cs'
      · have h2 := (updateByIdF_isSome (f := f) (l := cs) (i := i))
        rw [ho] at h2
        simp only [Option.isSome_none, Bool.false_eq_true, false_iff] at h2
        simp [hne, h2]
      · have h2 := (updateByIdF_isSome (f := f) (l := cs) (i := i))
        rw [ho] at h2
        simp only [Option.isSome_some, true_iff] at h2
        simp [hne, h2]

theorem updateByIdF_isSome {f : MyNode → MyNode} :
    ∀ {l : List MyNode} {i : String}, (updateByIdF i f l).isSome = true ↔ i ∈ idsF l
  | [], i => by
    rw [updateByIdF]
    simp [idsF]
  | n :: rest, i => by
    rw [updateByIdF]
    have hids : idsF (n :: rest) = subIds n ++ idsF rest := by
      simp only [idsF, allNodesF_cons, List.map_append, subIds]
    rw [hids]
    split
    · next n' heq =>
      have h2 := (updateByIdN_isSome (f := f) (n := n) (i := i))
      rw [heq] at h2
      simp only [Option.isSome_some, true_iff] at h2
      simp [h2]
    · next heq =>
      have h2 := (updateByIdN_isSome (f := f) (n := n) (i := i))
      rw [heq] at h2
      simp only [Option.isSome_none, Bool.false_eq_true, false_iff] at h2
      rcases ho : updateByIdF i f rest with _ | r₀
      · have h3 := (updateByIdF_isSome (f := f) (l := rest) (i := i))
        rw [ho] at h3
        simp only [Option.isSome_none, Bool.false_eq_true, false_iff] at h3
        simp [h2, h3]
      · have h3 := (updateByIdF_isSome (f := f) (l := rest) (i := i))
        rw [ho] at h3
        simp only [Option.isSome_some, true_iff] at h3
        simp [h2, h3]
end

/-! ### Attach lemmas -/

theorem flat_pushChildFn (e : Bool) (m n : MyNode) : flat (pushChildFn e m n) = flat n := by
  cases n
  rw [pushChildFn]
  rfl

theorem pushChildFn_id (e : Bool) (m n : MyNode) : (pushChildFn e m n).id = n.id := by
  cases n; rw [pushChildFn]; rfl

theorem pushChildFn_children (e : Bool) (m n : MyNode) :
    (pushChildFn e m n).children = n.children ++ [m] := by
  cases n; rw [pushChildFn]; rfl

theorem flatSubM_pushChildFn (e : Bool) (m n : MyNode) :
    flatSubM (pushChildFn e m n) = flatSubM n + flatSubM m := by
  rw [flatSubM_sum, flatSubM_sum, flat_pushChildFn, pushChildFn_children]
  simp only [flatM, flatF, allNodesF_append, allNodesF_cons, allNodesF_nil, List.append_nil,
    List.map_append]
  rw [← Multiset.coe_add, ← add_assoc]
  rfl

theorem attachTo_flatM {e : Bool} {i : String} {m : MyNode} {l l' : List MyNode}
    (h : attachTo e i m l = some l') : flatM l' = flatM l + flatSubM m := by
  rcases updateByIdF_spec h with ⟨n₀, _, _, C, hc1, hc2⟩
  rw [hc2, flatSubM_pushChildFn, hc1, add_assoc]

theorem attachTo_isSome {e : Bool} {i : String} {m : MyNode} {l : List MyNode} :
    (attachTo e i m l).isSome = true ↔ i ∈ idsF l := updateByIdF_isSome

/-! ### Attach correspondence lemmas -/

theorem mem_idsF_iff_of_flat_eq {l l' : List MyNode} {m : MyNode}
    (h : flatM l = flatSubM m + flatM l') {x : String} :
    x ∈ idsF l ↔ x ∈ subIds m ∨ x ∈ idsF l' := by
  have h2 : idsM l = (subIds m : List String) + idsM l' := by
    rw [← flatM_map_id, h, Multiset.map_add, flatM_map_id, flatSubM_map_id]
  constructor
  · intro hx
    have hx2 : x ∈ idsM l := Multiset.mem_coe.2 hx
    rw [h2] at hx2
    rcases Multiset.mem_add.1 hx2 with h3 | h3
    · exact Or.inl (Multiset.mem_coe.1 h3)
    · exact Or.inr (Multiset.mem_coe.1 h3)
  · intro hx
    have hx2 : x ∈ idsM l := by
      rw [h2]
      rcases hx with h3 | h3
      · exact Multiset.mem_add.2 (Or.inl (Multiset.mem_coe.2 h3))
      · exact Multiset.mem_add.2 (Or.inr (Multiset.mem_coe.2 h3))
    exact Multiset.mem_coe.1 hx2

theorem mem_idsF_split {l l' : List MyNode} {m : MyNode}
    (h : flatM l' = flatM l + flatSubM m) {x : String} (hx : x ∈ idsF l') :
    x ∈ idsF l ∨ x ∈ subIds m := by
  have h2 : flatM l' = flatSubM m + flatM l := by rw [h, add_comm]
  rcases (mem_idsF_iff_of_flat_eq h2).1 hx with h3 | h3
  · exact Or.inr h3
  · exact Or.inl h3

theorem mem_subIds_of_strict {a rem : MyNode} (ha : a ∈ subtreeN rem) {x : String}
    (hx : x ∈ strictIds a) : x ∈ subIds rem := by
  rw [subIds_eq, List.mem_cons]
  rcases List.mem_cons.1 (subtreeN_eq rem ▸ ha) with h1 | h2
  · subst h1
    exact Or.inr hx
  · right
    rcases List.mem_map.1 hx with ⟨y, hy, hyx⟩
    exact List.mem_map.2 ⟨y, mem_allNodesF_trans h2 hy, hyx⟩

mutual
theorem attachCorrN {m : MyNode} :
    ∀ {n : MyNode} {i : String} {n' : MyNode},
      updateByIdN i (pushChildFn true m) n = some n' →
      ∀ a ∈ subtreeN n', a ∈ subtreeN m
        ∨ ∃ a₀ ∈ subtreeN n, a₀.id = a.id
            ∧ ∀ x ∈ strictIds a, x ∈ strictIds a₀ ∨ x ∈ subIds m
  | .mk ni nl nt cs nfp nst nctp, i, n', h => by
    rw [updateByIdN] at h
    split at h
    · next heq =>
      rw [Option.some.injEq] at h
      subst h
      intro a ha
      rw [pushChildFn] at ha
      rw [subtreeN_eq] at ha
      simp only [MyNode.children_mk] at ha
      rw [allNodesF_append, allNodesF_cons, allNodesF_nil, List.append_nil] at ha
      rcases List.mem_cons.1 ha with h1 | h2
      · right
        refine ⟨.mk ni nl nt cs nfp nst nctp, self_mem_subtreeN _, ?_, ?_⟩
        · subst h1; rfl
        · intro x hx
          subst h1
          simp only [strictIds_mk] at hx ⊢
          simp only [idsF, allNodesF_append, allNodesF_cons, allNodesF_nil, List.append_nil,
            List.map_append, List.mem_append] at hx
          rcases hx with h3 | h3
          · exact Or.inl h3
          · exact Or.inr h3
      · rcases List.mem_append.1 h2 with h3 | h3
        · right
          refine ⟨a, ?_, rfl, fun x hx => Or.inl hx⟩
          rw [subtreeN_eq]
          simp only [MyNode.children_mk]
          exact List.mem_cons_of_mem _ h3
        · exact Or.inl h3
    · next heq =>
      split at h
      · next cs' heq2 =>
        rw [Option.some.injEq] at h
        subst h
        intro a ha
        rw [subtreeN_eq] at ha
        simp only [MyNode.children_mk] at ha
        rcases List.mem_cons.1 ha with h1 | h2
        · right
          refine ⟨.mk ni nl nt cs nfp nst nctp, self_mem_subtreeN _, ?_, ?_⟩
          · subst h1; rfl
          · intro x hx
            subst h1
            simp only [strictIds_mk] at hx ⊢
            have hflat : flatM cs' = flatM cs + flatSubM m :=
              attachTo_flatM (show attachTo true i m cs = some cs' from heq2)
            exact mem_idsF_split hflat hx
        · rcases attachCorrF heq2 a h2 with h3 | ⟨a₀, ha₀, hida, hxsub⟩
          · exact Or.inl h3
          · right
            refine ⟨a₀, ?_, hida, hxsub⟩
            rw [subtreeN_eq]
            simp only [MyNode.children_mk]
            exact List.mem_cons_of_mem _ ha₀
      · exact Option.noConfusion h

theorem attachCorrF {m : MyNode} :
    ∀ {l : List MyNode} {i : String} {l' : List MyNode},
      updateByIdF i (pushChildFn true m) l = some l' →
      ∀ a ∈ allNodesF l', a ∈ subtreeN m
        ∨ ∃ a₀ ∈ allNodesF l, a₀.id = a.id
            ∧ ∀ x ∈ strictIds a, x ∈ strictIds a₀ ∨ x ∈ subIds m
  | [], i, l', h => by
    rw [updateByIdF] at h
    exact Option.noConfusion h
  | n :: rest, i, l', h => by
    rw [updateByIdF] at h
    split at h
    · next n₁ heq =>
      rw [Option.some.injEq] at h
      subst h
      intro a ha
      rw [allNodesF_cons] at ha
      rcases List.mem_append.1 ha with h1 | h2
      · rcases attachCorrN heq a h1 with h3 | ⟨a₀, ha₀, hida, hxsub⟩
        · exact Or.inl h3
        · right
          refine ⟨a₀, ?_, hida, hxsub⟩
          rw [allNodesF_cons]
          exact List.mem_append_left _ ha₀
      · right
        refine ⟨a, ?_, rfl, fun x hx => Or.inl hx⟩
        rw [allNodesF_cons]
        exact List.mem_append_right _ h2
    · next heq =>
      rcases ho : updateByIdF i (pushChildFn true m) rest with _ | r₀
      · rw [ho] at h; exact Option.noConfusion h
      · rw [ho] at h
        simp only [Option.map_some', Option.some.injEq] at h
        subst h
        intro a ha
        rw [allNodesF_cons] at ha
        rcases List.mem_append.1 ha with h1 | h2
        · right
          refine ⟨a, ?_, rfl, fun x hx => Or.inl hx⟩
          rw [allNodesF_cons]
          exact List.mem_append_left _ h1
        · rcases attachCorrF ho a h2 with h3 | ⟨a₀, ha₀, hida, hxsub⟩
          · exact Or.inl h3
          · right
            refine ⟨a₀, ?_, hida, hxsub⟩
            rw [allNodesF_cons]
            exact List.mem_append_right _ ha₀
end

/-! ### Multiset preservation of `moveNodes` -/

theorem nodesEq_of_id_eq {data : List MyNode} (hnodup : (idsF data).Nodup)
    {a b : MyNode} (ha : a ∈ allNodesF data) (hb : b ∈ allNodesF data) (h : a.id = b.id) :
    a = b :=
  List.inj_on_of_nodup_map hnodup ha hb h

theorem flat_id (n : MyNode) : (flat n).id = n.id := rfl

theorem isValidMove_true_elim {s t : MyNode} (hv : ¬ isValidMove s (some t) = false) :
    s ≠ t ∧ isDescendant s t = false := by
  unfold isValidMove at hv
  dsimp only at hv
  by_cases he : s = t
  · rw [if_pos he] at hv
    exact absurd rfl hv
  · rw [if_neg he] at hv
    refine ⟨he, ?_⟩
    cases hd : isDescendant s t
    · rfl
    · rw [hd] at hv
      exact absurd rfl hv

theorem target_id_not_in_removed {data : List MyNode} {t s rem : MyNode}
    {acc : List MyNode} (hnodup : (idsF data).Nodup)
    (ht : t ∈ allNodesF data) (hs : s ∈ allNodesF data)
    (hne : s ≠ t) (hdesc : isDescendant s t = false)
    (hremid : rem.id = s.id) (hremmem : rem ∈ allNodesF acc)
    (hanc : ∀ a ∈ allNodesF acc, t.id ∈ strictIds a →
      ∃ a₀ ∈ allNodesF data, a₀.id = a.id ∧ t.id ∈ strictIds a₀) :
    t.id ∉ subIds rem := by
  intro hin
  rw [subIds_eq, List.mem_cons] at hin
  rcases hin with h1 | h2
  · rw [hremid] at h1
    exact hne (nodesEq_of_id_eq hnodup hs ht h1.symm)
  · rcases hanc rem hremmem h2 with ⟨a₀, ha₀, hida, hta₀⟩
    rw [hremid] at hida
    have hsa : a₀ = s := nodesEq_of_id_eq hnodup ha₀ hs hida
    rw [hsa] at hta₀
    rcases List.mem_map.1 hta₀ with ⟨y, hy, hyid⟩
    have hyd : y ∈ allNodesF data := mem_allNodesF_trans hs hy
    have hyt : y = t := nodesEq_of_id_eq hnodup hyd ht hyid
    have hty : t ∈ allNodesF s.children := hyt ▸ hy
    rw [(isDescendant_iff s t).2 hty] at hdesc
    exact Bool.noConfusion hdesc

theorem moveOne_inv {data : List MyNode} {topt : Option MyNode}
    (hnodup : (idsF data).Nodup)
    (htgt : ∀ t, topt = some t → t ∈ allNodesF data)
    {s : MyNode} (hs : s ∈ allNodesF data)
    {acc : List MyNode × Bool}
    (hflat : flatM acc.1 = flatM data)
    (hanc : ∀ t, topt = some t → ∀ a ∈ allNodesF acc.1, t.id ∈ strictIds a →
      ∃ a₀ ∈ allNodesF data, a₀.id = a.id ∧ t.id ∈ strictIds a₀) :
    flatM (moveOne topt acc s).1 = flatM data
      ∧ (∀ t, topt = some t → ∀ a ∈ allNodesF (moveOne topt acc s).1, t.id ∈ strictIds a →
          ∃ a₀ ∈ allNodesF data, a₀.id = a.id ∧ t.id ∈ strictIds a₀) := by
  unfold moveOne
  by_cases hv : isValidMove s topt = false
  · rw [if_pos hv]
    exact ⟨hflat, hanc⟩
  · rw [if_neg hv]
    rcases hr : removeRecursive s.id acc.1 with _ | ⟨rem, d'⟩
    · exact ⟨hflat, hanc⟩
    · rcases removeRecursive_spec hr with ⟨hremid, hremmem, hremflat, hremcorr⟩
      have hflat_app : flatM (d' ++ [rem]) = flatM data := by
        rw [flatM_append, flatM_singleton, add_comm, ← hremflat, hflat]
      have hcorr_chain : ∀ t, topt = some t →
          ∀ a₀ ∈ allNodesF d', t.id ∈ strictIds a₀ →
          ∃ a₂ ∈ allNodesF data, a₂.id = a₀.id ∧ t.id ∈ strictIds a₂ := by
        intro t htq a₀ ha₀ hta₀
        rcases hremcorr a₀ ha₀ with ⟨a₁, ha₁, hida₁, hsub₁⟩
        rcases hanc t htq a₁ ha₁ (hsub₁ _ hta₀) with ⟨a₂, ha₂, hida₂, hta₂⟩
        exact ⟨a₂, ha₂, hida₂.trans hida₁, hta₂⟩
      cases topt with
      | none =>
        dsimp only
        refine ⟨hflat_app, ?_⟩
        intro t htq
        exact Option.noConfusion htq
      | some t =>
        dsimp only
        have ht : t ∈ allNodesF data := htgt t rfl
        rcases isValidMove_true_elim hv with ⟨hne, hdesc⟩
        have hnotid : t.id ∉ subIds rem :=
          target_id_not_in_removed hnodup ht hs hne hdesc hremid hremmem
            (fun a ha hta => hanc t rfl a ha hta)
        have hanc_app : ∀ a ∈ allNodesF (d' ++ [rem]), t.id ∈ strictIds a →
            ∃ a₂ ∈ allNodesF data, a₂.id = a.id ∧ t.id ∈ strictIds a₂ := by
          intro a ha hta
          rw [allNodesF_append, allNodesF_cons, allNodesF_nil, List.append_nil,
            List.mem_append] at ha
          rcases ha with h1 | h2
          · exact hcorr_chain t rfl a h1 hta
          · exact absurd (mem_subIds_of_strict h2 hta) hnotid
        by_cases hg : t.ty = .group
        · rw [if_pos hg]
          have htid_acc : t.id ∈ idsF acc.1 := by
            have hft : flat t ∈ flatM acc.1 := by
              rw [hflat]
              exact flat_mem_flatM ht
            rcases mem_flatM.1 hft with ⟨b, hb, hbt⟩
            have : b.id = t.id := by rw [← flat_id b, hbt, flat_id]
            exact this ▸ mem_idsF_of_mem_allNodesF hb
          have htid_d' : t.id ∈ idsF d' := by
            rcases (mem_idsF_iff_of_flat_eq hremflat).1 htid_acc with h1 | h1
            · exact absurd h1 hnotid
            · exact h1
          have hsome : (attachTo true t.id rem d').isSome = true := attachTo_isSome.2 htid_d'
          rcases Option.isSome_iff_exists.1 hsome with ⟨d₂, hatt⟩
          rw [hatt]
          simp only [Option.getD_some]
          refine ⟨?_, ?_⟩
          · rw [attachTo_flatM hatt, add_comm, ← hremflat, hflat]
          · intro t2 ht2 a ha hta
            injection ht2 with ht3
            subst ht3
            rcases attachCorrF hatt a ha with h1 | ⟨a₀, ha₀, hida, hsub⟩
            · exact absurd (mem_subIds_of_strict h1 hta) hnotid
            · rcases hsub _ hta with h2 | h2
              · rcases hcorr_chain t rfl a₀ ha₀ h2 with ⟨a₂, ha₂, hid₂, ht₂⟩
                exact ⟨a₂, ha₂, hid₂.trans hida, ht₂⟩
              · exact absurd h2 hnotid
        · rw [if_neg hg]
          refine ⟨hflat_app, ?_⟩
          intro t2 ht2 a ha hta
          injection ht2 with ht3
          subst ht3
          exact hanc_app a ha hta

theorem moveNodes_flatM {sources : List MyNode} {topt : Option MyNode} {data : List MyNode}
    (hnodup : (idsF data).Nodup)
    (hsrc : ∀ s ∈ sources, s ∈ allNodesF data)
    (htgt : ∀ t, topt = some t → t ∈ allNodesF data) :
    flatM ((moveNodes sources topt data).1) = flatM data := by
  unfold moveNodes
  suffices h : ∀ (srcs : List MyNode), (∀ s ∈ srcs, s ∈ allNodesF data) →
      ∀ acc : List MyNode × Bool, flatM acc.1 = flatM data →
      (∀ t, topt = some t → ∀ a ∈ allNodesF acc.1, t.id ∈ strictIds a →
        ∃ a₀ ∈ allNodesF data, a₀.id = a.id ∧ t.id ∈ strictIds a₀) →
      flatM ((srcs.foldl (moveOne topt) acc).1) = flatM data by
    refine h sources hsrc (data, false) rfl ?_
    intro t _ a ha hta
    exact ⟨a, ha, rfl, hta⟩
  intro srcs
  induction srcs with
  | nil =>
    intro _ acc hflat _
    exact hflat
  | cons s rest ih =>
    intro hsrcs acc hflat hanc
    rw [List.foldl_cons]
    rcases moveOne_inv hnodup htgt (hsrcs s (List.mem_cons_self s rest)) hflat hanc with
      ⟨h1, h2⟩
    exact ih (fun x hx => hsrcs x (List.mem_cons_of_mem s hx)) (moveOne topt acc s) h1 h2

/-! ### Claim C10 -/

/-- C10 (amended): Under the preconditions that node ids are unique
across the forest AND that the sources and the target (when present) are
nodes of the forest — which is how `moveNodes` is invoked from the
drag-and-drop handler, where payload and target are nodes of the tree —
`moveNodes` preserves the multiset of nodes of the forest (projected to
id, label, type and filePath): a source is re-attached to the target
group or the root exactly when its detachment removed it, so no batch of
valid and invalid sources can duplicate or lose a node.  Without the
target-in-forest precondition the claim is false, see the
counterexample. -/
theorem claim_C10 (sources : List MyNode) (target : Option MyNode) (st : SysState)
    (hnodup : (idsF st.data).Nodup)
    (hsrc : ∀ s ∈ sources, s ∈ allNodesF st.data)
    (htgt : ∀ t, target = some t → t ∈ allNodesF st.data) :
    flatM (moveNodesOp sources target st).data = flatM st.data := by
  unfold moveNodesOp
  dsimp only
  split
  · rw [saveState_data, flatM_saveForest]
    exact moveNodes_flatM hnodup hsrc htgt
  · next hfalse =>
    have h2 : (moveNodes sources target st.data).1 = st.data :=
      moveNodes_false (by simpa using hfalse)
    simp only [h2]

theorem claim_C10_witness :
    (idsF [MyNode.mk "a" "a.txt" .file [] (some "/a.txt") none none]).Nodup
      ∧ flatM (moveNodesOp [MyNode.mk "a" "a.txt" .file [] (some "/a.txt") none none] none
          ⟨[MyNode.mk "a" "a.txt" .file [] (some "/a.txt") none none], 0,
            emptyIndex, emptyIndex⟩).data
        = flatM [MyNode.mk "a" "a.txt" .file [] (some "/a.txt") none none] :=
  ⟨by decide,
    claim_C10 [MyNode.mk "a" "a.txt" .file [] (some "/a.txt") none none] none
      ⟨[MyNode.mk "a" "a.txt" .file [] (some "/a.txt") none none], 0,
        emptyIndex, emptyIndex⟩
      (by decide) (by decide) (fun t ht => Option.noConfusion ht)⟩

/-- C10 counterexample to the claim as stated: with unique ids but a
target group object that is not a node of the forest (the code would
push the detached source into that detached object), the only node of
the forest is lost: the claim's stated precondition (unique ids alone)
does not suffice. -/
theorem claim_C10_cex :
    (idsF [MyNode.mk "a" "a.txt" .file [] (some "/a.txt") none none]).Nodup
      ∧ (moveNodesOp [MyNode.mk "a" "a.txt" .file [] (some "/a.txt") none none]
          (some (.mk "g" "G" .group [] none none none))
          ⟨[MyNode.mk "a" "a.txt" .file [] (some "/a.txt") none none], 0,
            emptyIndex, emptyIndex⟩).data = []
      ∧ flatM ([] : List MyNode)
          ≠ flatM [MyNode.mk "a" "a.txt" .file [] (some "/a.txt") none none] := by
  refine ⟨by decide, rfl, by decide⟩

/-! ### Basename and exclusion lemmas -/

theorem basename_no_slash (p : String) : '/' ∉ (basename p).toList := by
  unfold basename
  intro h
  have h2 : '/' ∈ (p.toList.reverse.dropWhile (· = '/')).takeWhile (· ≠ '/') :=
    List.mem_reverse.1 h
  have h3 := List.mem_takeWhile_imp h2
  simp at h3

theorem dropWhile_eq_self_of_not {l : List Char} (h : ∀ c ∈ l, ¬ c = '/') :
    l.dropWhile (· = '/') = l := by
  cases l with
  | nil => rfl
  | cons a as =>
    rw [List.dropWhile_cons]
    rw [if_neg (by simpa using h a (List.mem_cons_self a as))]

theorem takeWhile_eq_self_of_all {l : List Char} (h : ∀ c ∈ l, ¬ c = '/') :
    l.takeWhile (· ≠ '/') = l := by
  induction l with
  | nil => rfl
  | cons a as ih =>
    rw [List.takeWhile_cons]
    rw [if_pos (by simpa using h a (List.mem_cons_self a as))]
    rw [ih fun c hc => h c (List.mem_cons_of_mem a hc)]

theorem basename_of_no_slash {s : String} (h : '/' ∉ s.toList) : basename s = s := by
  unfold basename
  have h1 : ∀ c ∈ s.toList.reverse, ¬ c = '/' := by
    intro c hc hcontra
    subst hcontra
    exact h (List.mem_reverse.1 hc)
  rw [dropWhile_eq_self_of_not h1, takeWhile_eq_self_of_all h1, List.reverse_reverse]
  cases s
  rfl

theorem basename_idem (p : String) : basename (basename p) = basename p :=
  basename_of_no_slash (basename_no_slash p)

theorem shouldExclude_iff (ex : List String) (q : String) :
    shouldExclude ex q = true ↔ ∃ sfx ∈ ex, strEndsWith (basename q) sfx = true := by
  unfold shouldExclude
  rw [List.any_eq_true]

theorem shouldExclude_basename_iff (ex : List String) (p : String) :
    shouldExclude ex (basename p) = true ↔ ∃ sfx ∈ ex, strEndsWith (basename p) sfx = true := by
  rw [shouldExclude_iff, basename_idem]

/-! ### Child-pair lemmas for attachment -/

theorem cpM_append (l₁ l₂ : List MyNode) : cpM (l₁ ++ l₂) = cpM l₁ + cpM l₂ := by
  induction l₁ with
  | nil => simp [cpM, childPairsF]
  | cons n rest ih => rw [List.cons_append, cpM_cons, cpM_cons, ih, add_assoc]

theorem cpM_singleton (n : MyNode) : cpM [n] = cpSubM n := by
  simp only [cpM, cpSubM, childPairsF_cons, childPairsF, List.append_nil]

theorem cpSubM_mk (ni nl : String) (nt : NodeType) (cs : List MyNode)
    (nfp : Option String) (nst : Option CState) (nctp : Option String) :
    cpSubM (.mk ni nl nt cs nfp nst nctp)
      = ((cs.map fun c => (ni, flat c) : List (String × FlatNode)) : Multiset (String × FlatNode))
        + cpM cs := by
  simp only [cpSubM, childPairsN_mk, cpM, MyNode.id_mk]
  rw [← Multiset.coe_add]

theorem cpSubM_pushChildFn (e : Bool) (m n : MyNode) :
    cpSubM (pushChildFn e m n) = cpSubM n + ((n.id, flat m) ::ₘ cpSubM m) := by
  cases n with
  | mk ni nl nt cs nfp nst nctp =>
    rw [pushChildFn, cpSubM_mk, cpSubM_mk, List.map_append, cpM_append, cpM_singleton]
    simp only [List.map_cons, List.map_nil, MyNode.id_mk]
    rw [← Multiset.coe_add, Multiset.coe_singleton, ← Multiset.singleton_add]
    abel

mutual
theorem updateByIdN_cp {f : MyNode → MyNode} (hflat : ∀ x, flat (f x) = flat x) :
    ∀ {n : MyNode} {i : String} {n' : MyNode},
      updateByIdN i f n = some n' →
      flat n' = flat n
        ∧ ∃ n₀, n₀ ∈ subtreeN n ∧ n₀.id = i
          ∧ ∃ Cp : Multiset (String × FlatNode), cpSubM n = Cp + cpSubM n₀
            ∧ cpSubM n' = Cp + cpSubM (f n₀)
  | .mk ni nl nt cs nfp nst nctp, i, n', h => by
    rw [updateByIdN] at h
    split at h
    · next heq =>
      rw [Option.some.injEq] at h
      subst h
      refine ⟨hflat _, .mk ni nl nt cs nfp nst nctp, self_mem_subtreeN _, heq, 0, ?_, ?_⟩
      · rw [zero_add]
      · rw [zero_add]
    · next heq =>
      split at h
      · next cs' heq2 =>
        rw [Option.some.injEq] at h
        subst h
        rcases updateByIdF_cp hflat heq2 with ⟨hm, n₀, hmem, hid, Cp, h1, h2⟩
        have hmm : (cs'.map fun c => (ni, flat c)) = cs.map fun c => (ni, flat c) := by
          have h3 := congrArg (List.map (Prod.mk ni)) hm
          rw [List.map_map, List.map_map] at h3
          exact h3
        refine ⟨rfl, n₀, ?_, hid,
          ((cs.map fun c => (ni, flat c) : List (String × FlatNode))
            : Multiset (String × FlatNode)) + Cp, ?_, ?_⟩
        · rw [subtreeN_eq]
          simp only [MyNode.children_mk]
          exact List.mem_cons_of_mem _ hmem
        · rw [cpSubM_mk, h1, add_assoc]
        · rw [cpSubM_mk, h2, add_assoc, hmm]
      · exact Option.noConfusion h

theorem updateByIdF_cp {f : MyNode → MyNode} (hflat : ∀ x, flat (f x) = flat x) :
    ∀ {l : List MyNode} {i : String} {l' : List MyNode},
      updateByIdF i f l = some l' →
      l'.map flat = l.map flat
        ∧ ∃ n₀, n₀ ∈ allNodesF l ∧ n₀.id = i
          ∧ ∃ Cp : Multiset (String × FlatNode), cpM l = Cp + cpSubM n₀
            ∧ cpM l' = Cp + cpSubM (f n₀)
  | [], i, l', h => by
    rw [updateByIdF] at h
    exact Option.noConfusion h
  | n :: rest, i, l', h => by
    rw [updateByIdF] at h
    split at h
    · next n₁ heq =>
      rw [Option.some.injEq] at h
      subst h
      rcases updateByIdN_cp hflat heq with ⟨hfl, n₀, hmem, hid, Cp, h1, h2⟩
      refine ⟨?_, n₀, ?_, hid, Cp + cpM rest, ?_, ?_⟩
      · rw [List.map_cons, List.map_cons, hfl]
      · rw [allNodesF_cons]
        exact List.mem_append_left _ hmem
      · rw [cpM_cons, h1, add_right_comm]
      · rw [cpM_cons, h2, add_right_comm]
    · next heq =>
      rcases ho : updateByIdF i f rest with _ | r₀
      · rw [ho] at h; exact Option.noConfusion h
      · rw [ho] at h
        simp only [Option.map_some', Option.some.injEq] at h
        subst h
        rcases updateByIdF_cp hflat ho with ⟨hm, n₀, hmem, hid, Cp, h1, h2⟩
        refine ⟨?_, n₀, ?_, hid, cpSubM n + Cp, ?_, ?_⟩
        · rw [List.map_cons, List.map_cons, hm]
        · rw [allNodesF_cons]
          exact List.mem_append_right _ hmem
        · rw [cpM_cons, h1, add_assoc]
        · rw [cpM_cons, h2, add_assoc]
end

theorem attachTo_cpM {e : Bool} {i : String} {m : MyNode} {l l' : List MyNode}
    (h : attachTo e i m l = some l') :
    cpM l' = cpM l + ((i, flat m) ::ₘ cpSubM m) := by
  rcases updateByIdF_cp (flat_pushChildFn e m) h with ⟨_, n₀, _, hid, Cp, h1, h2⟩
  rw [h2, cpSubM_pushChildFn, hid, h1, add_assoc]

mutual
theorem mem_cpN : ∀ {n : MyNode} {pr : String × FlatNode}, pr ∈ childPairsN n →
    ∃ a ∈ subtreeN n, a.id = pr.1 ∧ ∃ c ∈ a.children, flat c = pr.2
  | .mk ni nl nt cs nfp nst nctp, pr, h => by
    rw [childPairsN_mk] at h
    rcases List.mem_append.1 h with h1 | h2
    · rcases List.mem_map.1 h1 with ⟨c, hc, hcp⟩
      subst hcp
      exact ⟨.mk ni nl nt cs nfp nst nctp, self_mem_subtreeN _, rfl, c,
        by simpa using hc, rfl⟩
    · rcases mem_cpF h2 with ⟨a, ha, hid, hc⟩
      refine ⟨a, ?_, hid, hc⟩
      rw [subtreeN_eq]
      simp only [MyNode.children_mk]
      exact List.mem_cons_of_mem _ ha

theorem mem_cpF : ∀ {l : List MyNode} {pr : String × FlatNode}, pr ∈ childPairsF l →
    ∃ a ∈ allNodesF l, a.id = pr.1 ∧ ∃ c ∈ a.children, flat c = pr.2
  | [], pr, h => by
    rw [childPairsF] at h
    exact absurd h (List.not_mem_nil pr)
  | n :: rest, pr, h => by
    rw [childPairsF_cons] at h
    rcases List.mem_append.1 h with h1 | h2
    · rcases mem_cpN h1 with ⟨a, ha, hid, hc⟩
      refine ⟨a, ?_, hid, hc⟩
      rw [allNodesF_cons]
      exact List.mem_append_left _ ha
    · rcases mem_cpF h2 with ⟨a, ha, hid, hc⟩
      refine ⟨a, ?_, hid, hc⟩
      rw [allNodesF_cons]
      exact List.mem_append_right _ ha
end

theorem mem_cpM_sound {l : List MyNode} {pr : String × FlatNode} (h : pr ∈ cpM l) :
    ∃ a ∈ allNodesF l, a.id = pr.1 ∧ ∃ c ∈ a.children, flat c = pr.2 :=
  mem_cpF (Multiset.mem_coe.1 h)

theorem saveForest_top_mem {d : List MyNode} {x : MyNode} (h : x ∈ d) :
    ∃ c ∈ saveForest d, flat c = flat x := by
  rw [saveForest_eq_assign]
  refine ⟨assignN "" (sortNode x), ?_, ?_⟩
  · rw [assignF_eq_map]
    refine List.mem_map.2 ⟨sortNode x, ?_, rfl⟩
    unfold sortNodesRecursive
    rw [(insSort_perm nodeLe (sortEach d)).mem_iff, sortEach_eq_map]
    exact List.mem_map.2 ⟨x, h, rfl⟩
  · rw [flat_assignN, flat_sortNode]

/-- **C8.** For every path and optional parent, `addFile` is a silent no-op
(the whole provider state unchanged, nothing persisted) exactly when the
basename of the path ends with at least one configured exclusion suffix
(simple suffix match); otherwise it adds exactly one new file node, labeled
with the basename and carrying the path, appended as a child of the parent
when the given parent is a group node of the forest, else at the forest
root.  The parent pointer, when supplied by the tree view, always
references a node of the current forest, which is the stated hypothesis. -/
theorem claim_C8 (excludes : List String) (p : String) (parent : Option MyNode)
    (st : SysState)
    (hpar : ∀ par, parent = some par → par.ty = .group → par ∈ allNodesF st.data) :
    (shouldExclude excludes (basename p) = true
        ↔ ∃ sfx ∈ excludes, strEndsWith (basename p) sfx = true)
    ∧ (shouldExclude excludes (basename p) = true → addFile excludes p parent st = st)
    ∧ (shouldExclude excludes (basename p) = false →
        flatM (addFile excludes p parent st).data
            = flatM st.data + {⟨generateId st.ctr, basename p, .file, some p⟩}
          ∧ (∀ par, parent = some par → par.ty = .group →
              (par.id, (⟨generateId st.ctr, basename p, .file, some p⟩ : FlatNode))
                ∈ cpM (addFile excludes p parent st).data)
          ∧ ((∀ par, parent = some par → par.ty ≠ .group) →
              ∃ c ∈ (addFile excludes p parent st).data,
                flat c = ⟨generateId st.ctr, basename p, .file, some p⟩)) := by
  refine ⟨shouldExclude_basename_iff excludes p, ?_, ?_⟩
  · intro hex
    simp only [addFile]
    rw [if_pos hex]
  · intro hex
    have hne : ¬ shouldExclude excludes (basename p) = true := by
      rw [hex]
      exact Bool.false_ne_true
    cases parent with
    | none =>
      have hd : addFile excludes p none st
          = saveState
              (st.data ++ [.mk (generateId st.ctr) (basename p) .file [] (some p) none none])
              (st.ctr + 1) := by
        simp only [addFile]
        rw [if_neg hne]
      refine ⟨?_, ?_, ?_⟩
      · rw [hd, saveState_data, flatM_saveForest, flatM_append, flatM_singleton, flatSubM_eq]
        rfl
      · intro par hp
        exact Option.noConfusion hp
      · intro _
        rw [hd, saveState_data]
        have hmem : (.mk (generateId st.ctr) (basename p) .file [] (some p) none none : MyNode)
            ∈ st.data ++ [.mk (generateId st.ctr) (basename p) .file [] (some p) none none] :=
          List.mem_append_right _ (List.mem_singleton.2 rfl)
        rcases saveForest_top_mem hmem with ⟨c, hc1, hc2⟩
        exact ⟨c, hc1, by rw [hc2, flat_mk]⟩
    | some par =>
      by_cases hg : par.ty = .group
      · have hpar2 := hpar par rfl hg
        have hid : par.id ∈ idsF st.data := mem_idsF_of_mem_allNodesF hpar2
        have hsome : (attachTo true par.id
            (.mk (generateId st.ctr) (basename p) .file [] (some p) none none)
            st.data).isSome = true := attachTo_isSome.2 hid
        rcases Option.isSome_iff_exists.1 hsome with ⟨l', hl'⟩
        have hd : addFile excludes p (some par) st = saveState l' (st.ctr + 1) := by
          simp only [addFile]
          rw [if_neg hne]
          rw [if_pos hg, hl']
          rfl
        have hflat := attachTo_flatM hl'
        have hcp := attachTo_cpM hl'
        refine ⟨?_, ?_, ?_⟩
        · rw [hd, saveState_data, flatM_saveForest, hflat, flatSubM_eq]
          rfl
        · intro par' hp' _
          injection hp' with hpp
          subst hpp
          rw [hd, saveState_data, cpM_saveForest, hcp]
          exact Multiset.mem_add.2 (Or.inr (Multiset.mem_cons_self _ _))
        · intro hng
          exact absurd hg (hng par rfl)
      · have hd : addFile excludes p (some par) st
            = saveState
                (st.data ++ [.mk (generateId st.ctr) (basename p) .file [] (some p) none none])
                (st.ctr + 1) := by
          simp only [addFile]
          rw [if_neg hne]
          rw [if_neg hg]
        refine ⟨?_, ?_, ?_⟩
        · rw [hd, saveState_data, flatM_saveForest, flatM_append, flatM_singleton, flatSubM_eq]
          rfl
        · intro par' hp' hg'
          injection hp' with hpp
          subst hpp
          exact absurd hg' hg
        · intro _
          rw [hd, saveState_data]
          have hmem : (.mk (generateId st.ctr) (basename p) .file [] (some p) none none : MyNode)
              ∈ st.data ++ [.mk (generateId st.ctr) (basename p) .file [] (some p) none none] :=
            List.mem_append_right _ (List.mem_singleton.2 rfl)
          rcases saveForest_top_mem hmem with ⟨c, hc1, hc2⟩
          exact ⟨c, hc1, by rw [hc2, flat_mk]⟩

/-- Witness for C8 at a concrete input: adding `/a/b.txt` under exclusion
list `[".meta"]` into a provider whose forest holds one group `docs`
(saved from scratch), with that group as the parent. -/
theorem claim_C8_witness :
    shouldExclude [".meta"] (basename "/a/b.txt") = false
    ∧ flatM (addFile [".meta"] "/a/b.txt"
          (some (assignN "" (.mk (generateId 0) "docs" .group [] none (some .expanded) none)))
          (saveState [.mk (generateId 0) "docs" .group [] none (some .expanded) none] 1)).data
        = flatM (saveState [.mk (generateId 0) "docs" .group [] none (some .expanded) none] 1).data
          + {⟨generateId 1, basename "/a/b.txt", .file, some "/a/b.txt"⟩} := by
  have h := claim_C8 [".meta"] "/a/b.txt"
    (some (assignN "" (.mk (generateId 0) "docs" .group [] none (some .expanded) none)))
    (saveState [.mk (generateId 0) "docs" .group [] none (some .expanded) none] 1)
    (by
      intro par hp _
      rw [Option.some.injEq] at hp
      subst hp
      decide)
  exact ⟨by decide, (h.2.2 (by decide)).1⟩

/-! ### Flat characterization of the descendant path rewrite -/

theorem updatePathF_flat (o np : String) : ∀ cs : List MyNode,
    (allNodesF (updatePathF o np cs)).map flat
      = ((allNodesF cs).map flat).map (flatRename o np)
  | [] => by
    rw [updatePathF]
    rfl
  | .mk ci cl ct ccs cfp cst cctp :: rest => by
    rw [updatePathF.eq_def]
    dsimp only
    rw [allNodesF_cons, allNodesF_cons, subtreeN_eq, subtreeN_eq]
    simp only [MyNode.children_mk, List.map_cons, List.map_append]
    rw [updatePathF_flat o np ccs, updatePathF_flat o np rest]
    cases cfp with
    | none => rfl
    | some fp => rfl

theorem flatM_updatePathF (o np : String) (cs : List MyNode) :
    flatM (updatePathF o np cs) = (flatM cs).map (flatRename o np) := by
  show ((allNodesF (updatePathF o np cs)).map flat : Multiset FlatNode)
    = Multiset.map (flatRename o np) ((allNodesF cs).map flat : List FlatNode)
  rw [Multiset.map_coe, updatePathF_flat o np cs]

theorem flatSubM_renameTarget (o np : String) (n : MyNode) :
    flatSubM (renameTarget o np n)
      = (⟨n.id, basename np, n.ty, some np⟩ : FlatNode)
          ::ₘ (flatM n.children).map (flatRename o np) := by
  cases n with
  | mk ni nl nt cs nfp nst nctp =>
    rw [renameTarget, setLabelPathFn, updatePathRecursive, flatSubM_eq]
    simp only [MyNode.children_mk, MyNode.id_mk, MyNode.ty_mk, flat_mk]
    rw [flatM_updatePathF]

/-- **C4.** For a rename notification (oldPath, newPath) whose oldPath hits
the path index — the matched node being a node of the current forest, with
unique ids — `handleFileRename` replaces the matched node's subtree, in the
multiset of observable node data, by one whose root has label = basename of
the new path and filePath = the new path, and in which every descendant is
rewritten by `flatRename`: a descendant whose filePath starts with oldPath
as a literal string has that leading piece replaced by newPath, and every
other descendant keeps its filePath; ids, labels and types of descendants
are untouched.  One save cycle runs at the end. -/
theorem claim_C4 (oldP newP : String) (st : SysState) (tn : MyNode)
    (hnodup : (idsF st.data).Nodup)
    (htn : tn ∈ allNodesF st.data)
    (hhit : st.pidx oldP = some tn) :
    ∃ C : Multiset FlatNode,
      flatM st.data = C + flatSubM tn
      ∧ flatM (handleFileRename [(oldP, newP)] st).data
          = C + ((⟨tn.id, basename newP, tn.ty, some newP⟩ : FlatNode)
              ::ₘ (flatM tn.children).map (flatRename oldP newP))
      ∧ (∀ f : FlatNode, ∀ fp : String, f.filePath = some fp →
          strStartsWith fp oldP = true →
          flatRename oldP newP f
            = ⟨f.id, f.label, f.ty, some (newP ++ strDropN fp (strLen oldP))⟩)
      ∧ (∀ f : FlatNode, ∀ fp : String, f.filePath = some fp →
          strStartsWith fp oldP = false → flatRename oldP newP f = f) := by
  have hid : tn.id ∈ idsF st.data := mem_idsF_of_mem_allNodesF htn
  have hsome : (updateByIdF tn.id (renameTarget oldP newP) st.data).isSome = true :=
    updateByIdF_isSome.2 hid
  rcases Option.isSome_iff_exists.1 hsome with ⟨l', hl'⟩
  have hr : handleFileRename [(oldP, newP)] st = saveState l' st.ctr := by
    simp [handleFileRename, hhit, hl']
  rcases updateByIdF_spec hl' with ⟨n₀, hmem₀, hid₀, C, hc1, hc2⟩
  have hn : n₀ = tn := nodesEq_of_id_eq hnodup hmem₀ htn hid₀
  subst hn
  refine ⟨C, hc1, ?_, ?_, ?_⟩
  · rw [hr, saveState_data, flatM_saveForest, hc2, flatSubM_renameTarget]
  · intro f fp hfp hpre
    simp [flatRename, hfp, hpre]
  · intro f fp hfp hpre
    cases f with
    | mk fi flb ft ffp =>
      have he : ffp = some fp := hfp
      subst he
      simp [flatRename, hpre]

/-- Witness for C4: the claim's own scenario.  A saved forest holding a
group for the folder `/old/dir` with a tracked file `/old/dir/sub/f.txt`;
renaming `/old/dir` to `/new/dir` rewrites the descendant's path to
`/new/dir/sub/f.txt`. -/
theorem claim_C4_witness :
    flatRename "/old/dir" "/new/dir"
        ⟨"fid", "f.txt", .file, some "/old/dir/sub/f.txt"⟩
      = ⟨"fid", "f.txt", .file, some "/new/dir/sub/f.txt"⟩ := by
  have h := claim_C4 "/old/dir" "/new/dir"
    (saveState [.mk "gid" "dir" .group
        [.mk "fid" "f.txt" .file [] (some "/old/dir/sub/f.txt") none none]
        (some "/old/dir") none none] 5)
    (assignN "" (sortNode (.mk "gid" "dir" .group
        [.mk "fid" "f.txt" .file [] (some "/old/dir/sub/f.txt") none none]
        (some "/old/dir") none none)))
    (by decide) (by decide) (by decide)
  rcases h with ⟨C, _, _, h3, _⟩
  rw [h3 ⟨"fid", "f.txt", .file, some "/old/dir/sub/f.txt"⟩ "/old/dir/sub/f.txt" rfl
    (by decide)]
  decide

/-! ### Path-index lemmas (`rebuildIndex` traversal) -/

theorem pathsF_cons (n : MyNode) (rest : List MyNode) :
    pathsF (n :: rest) = (subtreeN n).filterMap MyNode.filePath ++ pathsF rest := by
  simp only [pathsF, allNodesF_cons, List.filterMap_append]

theorem pathsF_perm_of_flat_eq {l l' : List MyNode} (h : flatM l = flatM l') :
    (pathsF l).Perm (pathsF l') := by
  have hp : (flatF l).Perm (flatF l') := Multiset.coe_eq_coe.1 h
  have h2 := hp.filterMap FlatNode.filePath
  have e1 : (flatF l).filterMap FlatNode.filePath = pathsF l := by
    rw [flatF, List.filterMap_map]
    rfl
  have e2 : (flatF l').filterMap FlatNode.filePath = pathsF l' := by
    rw [flatF, List.filterMap_map]
    rfl
  rw [e1, e2] at h2
  exact h2

mutual
theorem buildIdxN_pidx_skip : ∀ {m : MyNode} {acc : Index × Index} {k : String},
    k ∉ (subtreeN m).filterMap MyNode.filePath → (buildIdxN m acc).1 k = acc.1 k
  | .mk ni nl nt cs nfp nst nctp, acc, k, hk => by
    rw [buildIdxN.eq_def]
    dsimp only
    cases nfp with
    | none =>
      simp only [subtreeN_eq, MyNode.children_mk, List.filterMap_cons,
        MyNode.filePath_mk] at hk
      rw [buildIdxF_pidx_skip hk]
    | some fp =>
      simp only [subtreeN_eq, MyNode.children_mk, List.filterMap_cons,
        MyNode.filePath_mk] at hk
      have hk1 : ¬ k = fp := fun hcontra => hk (by rw [hcontra]; exact List.mem_cons_self _ _)
      have hk2 : k ∉ (allNodesF cs).filterMap MyNode.filePath :=
        fun hc => hk (List.mem_cons_of_mem _ hc)
      rw [buildIdxF_pidx_skip hk2]
      simp [setIdx, hk1]

theorem buildIdxF_pidx_skip : ∀ {l : List MyNode} {acc : Index × Index} {k : String},
    k ∉ pathsF l → (buildIdxF l acc).1 k = acc.1 k
  | [], acc, k, _ => rfl
  | n :: rest, acc, k, hk => by
    rw [buildIdxF]
    rw [pathsF_cons] at hk
    have hk1 : k ∉ (subtreeN n).filterMap MyNode.filePath :=
      fun hc => hk (List.mem_append_left _ hc)
    have hk2 : k ∉ pathsF rest := fun hc => hk (List.mem_append_right _ hc)
    rw [buildIdxF_pidx_skip hk2]
    exact buildIdxN_pidx_skip hk1
end

mutual
theorem buildIdxN_pidx_sound : ∀ {m : MyNode} {acc : Index × Index} {k : String}
    {n : MyNode}, (buildIdxN m acc).1 k = some n →
    (n ∈ subtreeN m ∧ n.filePath = some k) ∨ acc.1 k = some n
  | .mk ni nl nt cs nfp nst nctp, acc, k, n, h => by
    rw [buildIdxN.eq_def] at h
    dsimp only at h
    rcases buildIdxF_pidx_sound h with ⟨hmem, hfp⟩ | h2
    · left
      refine ⟨?_, hfp⟩
      rw [subtreeN_eq]
      simp only [MyNode.children_mk]
      exact List.mem_cons_of_mem _ hmem
    · cases nfp with
      | none => exact Or.inr h2
      | some fp =>
        simp only [setIdx] at h2
        by_cases hkf : k = fp
        · rw [if_pos hkf] at h2
          rw [Option.some.injEq] at h2
          subst h2
          subst hkf
          left
          exact ⟨self_mem_subtreeN _, by simp⟩
        · rw [if_neg hkf] at h2
          exact Or.inr h2

theorem buildIdxF_pidx_sound : ∀ {l : List MyNode} {acc : Index × Index} {k : String}
    {n : MyNode}, (buildIdxF l acc).1 k = some n →
    (n ∈ allNodesF l ∧ n.filePath = some k) ∨ acc.1 k = some n
  | [], acc, k, n, h => Or.inr h
  | m :: rest, acc, k, n, h => by
    rw [buildIdxF] at h
    rcases buildIdxF_pidx_sound h with ⟨hm, hfp⟩ | h2
    · left
      refine ⟨?_, hfp⟩
      rw [allNodesF_cons]
      exact List.mem_append_right _ hm
    · rcases buildIdxN_pidx_sound h2 with ⟨hm, hfp⟩ | h3
      · left
        refine ⟨?_, hfp⟩
        rw [allNodesF_cons]
        exact List.mem_append_left _ hm
      · exact Or.inr h3
end

mutual
theorem buildIdxN_pidx_complete : ∀ {m : MyNode} {acc : Index × Index} {k : String}
    {n : MyNode}, ((subtreeN m).filterMap MyNode.filePath).Nodup →
    n ∈ subtreeN m → n.filePath = some k → (buildIdxN m acc).1 k = some n
  | .mk ni nl nt cs nfp nst nctp, acc, k, n, hnd, hmem, hfp => by
    rw [buildIdxN.eq_def]
    dsimp only
    rw [subtreeN_eq] at hmem hnd
    simp only [MyNode.children_mk] at hmem hnd
    rcases List.mem_cons.1 hmem with he | hm
    · subst he
      have hnfp : nfp = some k := by simpa using hfp
      subst hnfp
      simp only [List.filterMap_cons, MyNode.filePath_mk] at hnd
      have hk : k ∉ (allNodesF cs).filterMap MyNode.filePath := (List.nodup_cons.1 hnd).1
      rw [buildIdxF_pidx_skip hk]
      simp [setIdx]
    · have hnd2 : ((allNodesF cs).filterMap MyNode.filePath).Nodup := by
        cases nfp with
        | none =>
          simpa only [List.filterMap_cons, MyNode.filePath_mk] using hnd
        | some fp =>
          simp only [List.filterMap_cons, MyNode.filePath_mk] at hnd
          exact (List.nodup_cons.1 hnd).2
      exact buildIdxF_pidx_complete hnd2 hm hfp

theorem buildIdxF_pidx_complete : ∀ {l : List MyNode} {acc : Index × Index} {k : String}
    {n : MyNode}, (pathsF l).Nodup →
    n ∈ allNodesF l → n.filePath = some k → (buildIdxF l acc).1 k = some n
  | [], acc, k, n, _, hmem, _ => by
    rw [allNodesF_nil] at hmem
    nomatch hmem
  | m :: rest, acc, k, n, hnd, hmem, hfp => by
    rw [buildIdxF]
    rw [pathsF_cons] at hnd
    rw [allNodesF_cons] at hmem
    rcases List.mem_append.1 hmem with h1 | h2
    · have hk : k ∉ pathsF rest := by
        intro hcontra
        exact (List.disjoint_of_nodup_append hnd)
          (List.mem_filterMap.2 ⟨n, h1, hfp⟩) hcontra
      rw [buildIdxF_pidx_skip hk]
      exact buildIdxN_pidx_complete (List.Nodup.of_append_left hnd) h1 hfp
    · exact buildIdxF_pidx_complete (List.Nodup.of_append_right hnd) h2 hfp
end

/-- **C1 (amended).** After any save cycle: unconditionally, every
path-index entry points to a node of the current forest whose `filePath`
is the entry's key, so no stale entry for a removed node survives a
rebuild; and provided the `filePath`s occurring in the forest are
pairwise distinct, every node of the forest that has a `filePath` is
found back under exactly that key in the path index. -/
theorem claim_C1 (d : List MyNode) (ctr : Nat) :
    (∀ fp n, (saveState d ctr).pidx fp = some n →
        n ∈ allNodesF (saveState d ctr).data ∧ n.filePath = some fp)
    ∧ ((pathsF d).Nodup →
        ∀ n, n ∈ allNodesF (saveState d ctr).data → ∀ fp, n.filePath = some fp →
          (saveState d ctr).pidx fp = some n) := by
  have hdata : (saveState d ctr).data = assignF "" (sortNodesRecursive d) := by
    rw [saveState_data, saveForest_eq_assign]
  have hpidx : (saveState d ctr).pidx
      = (buildIdxF (assignF "" (sortNodesRecursive d)) (emptyIndex, emptyIndex)).1 := rfl
  constructor
  · intro fp n h
    rw [hpidx] at h
    rcases buildIdxF_pidx_sound h with ⟨hm, hfp⟩ | h2
    · rw [hdata]
      exact ⟨hm, hfp⟩
    · exact Option.noConfusion h2
  · intro hnodup n hn fp hfp
    have hf : flatM (assignF "" (sortNodesRecursive d)) = flatM d := by
      rw [flatM_assignF, flatM_sortNodesRecursive]
    have hnd1 : (pathsF (assignF "" (sortNodesRecursive d))).Nodup :=
      (pathsF_perm_of_flat_eq hf).nodup_iff.2 hnodup
    rw [hpidx]
    rw [hdata] at hn
    exact buildIdxF_pidx_complete hnd1 hn hfp

/-- Counterexample to C1 as stated: nothing stops two nodes from carrying
the same `filePath` (e.g. `addFile` twice with one path); after the save
cycle the path index holds the later traversal hit, so the earlier node's
path does not map back to it. -/
theorem claim_C1_cex :
    ∃ (d : List MyNode) (ctr : Nat) (n : MyNode) (fp : String),
      n ∈ allNodesF (saveState d ctr).data ∧ n.filePath = some fp
      ∧ ¬ (saveState d ctr).pidx fp = some n := by
  refine ⟨[.mk "1" "x" .file [] (some "/a") none none,
      .mk "2" "y" .file [] (some "/a") none none], 0,
    .mk "1" "x" .file [] (some "/a") none (some "/x"), "/a", ?_, ?_, ?_⟩
  · decide
  · decide
  · decide

/-- Witness for C1 at a concrete input: a saved forest with one group
holding one tracked file; the file's path maps back to the stored node. -/
theorem claim_C1_witness :
    (saveState [.mk "g" "docs" .group
        [.mk "f" "a.txt" .file [] (some "/w/a.txt") none none] none none none] 0).pidx
        "/w/a.txt"
      = some (.mk "f" "a.txt" .file [] (some "/w/a.txt") none (some "/docs/a.txt")) := by
  have h := claim_C1 [.mk "g" "docs" .group
      [.mk "f" "a.txt" .file [] (some "/w/a.txt") none none] none none none] 0
  exact h.2 (by decide) (.mk "f" "a.txt" .file [] (some "/w/a.txt") none (some "/docs/a.txt"))
    (by decide) "/w/a.txt" (by decide)

/-! ### Leaf-node preservation under sorting and the expand/collapse reset -/

mutual
theorem memLeaf_sortN : ∀ {m n : MyNode}, n ∈ subtreeN m → n.ty = .file →
    n.children = [] → n ∈ subtreeN (sortNode m)
  | .mk ni nl nt cs nfp nst nctp, n, hmem, hty, hch => by
    rw [subtreeN_eq] at hmem
    simp only [MyNode.children_mk] at hmem
    rcases List.mem_cons.1 hmem with he | hm
    · subst he
      simp only [MyNode.children_mk] at hch
      subst hch
      rw [sortNode_mk]
      exact self_mem_subtreeN _
    · rw [sortNode_mk, subtreeN_eq]
      simp only [MyNode.children_mk]
      refine List.mem_cons_of_mem _ ?_
      rw [(allNodesF_perm (insSort_perm nodeLe (sortEach cs))).mem_iff]
      exact memLeaf_sortEach hm hty hch

theorem memLeaf_sortEach : ∀ {l : List MyNode} {n : MyNode}, n ∈ allNodesF l →
    n.ty = .file → n.children = [] → n ∈ allNodesF (sortEach l)
  | [], n, hmem, _, _ => by
    rw [allNodesF_nil] at hmem
    nomatch hmem
  | m :: rest, n, hmem, hty, hch => by
    rw [allNodesF_cons] at hmem
    rw [sortEach, allNodesF_cons]
    rcases List.mem_append.1 hmem with h1 | h2
    · exact List.mem_append_left _ (memLeaf_sortN h1 hty hch)
    · exact List.mem_append_right _ (memLeaf_sortEach h2 hty hch)
end

theorem memLeaf_sortF {l : List MyNode} {n : MyNode} (hmem : n ∈ allNodesF l)
    (hty : n.ty = .file) (hch : n.children = []) :
    n ∈ allNodesF (sortNodesRecursive l) := by
  show n ∈ allNodesF (insSort nodeLe (sortEach l))
  rw [(allNodesF_perm (insSort_perm nodeLe (sortEach l))).mem_iff]
  exact memLeaf_sortEach hmem hty hch

mutual
theorem memLeaf_resetN : ∀ {m : MyNode} (stv : CState) (c : Nat) {n : MyNode},
    n ∈ subtreeN m → n.ty = .file → n ∈ subtreeN (resetNodeState stv c m).1
  | .mk ni nl nt cs nfp nst nctp, stv, c, n, hmem, hty => by
    rw [subtreeN_eq] at hmem
    simp only [MyNode.children_mk] at hmem
    cases nt with
    | file =>
      show n ∈ subtreeN (.mk ni nl .file cs nfp nst nctp)
      rw [subtreeN_eq]
      simp only [MyNode.children_mk]
      exact hmem
    | group =>
      rcases List.mem_cons.1 hmem with he | hm
      · subst he
        simp only [MyNode.ty_mk] at hty
        nomatch hty
      · show n ∈ subtreeN (.mk (generateId c) nl .group
          (resetForest stv (c + 1) cs).1 nfp (some stv) nctp)
        rw [subtreeN_eq]
        simp only [MyNode.children_mk]
        exact List.mem_cons_of_mem _ (memLeaf_resetF stv (c + 1) hm hty)

theorem memLeaf_resetF : ∀ {l : List MyNode} (stv : CState) (c : Nat) {n : MyNode},
    n ∈ allNodesF l → n.ty = .file → n ∈ allNodesF (resetForest stv c l).1
  | [], stv, c, n, hmem, _ => by
    rw [allNodesF_nil] at hmem
    nomatch hmem
  | m :: rest, stv, c, n, hmem, hty => by
    rw [allNodesF_cons] at hmem
    show n ∈ allNodesF ((resetNodeState stv c m).1
      :: (resetForest stv (resetNodeState stv c m).2 rest).1)
    rw [allNodesF_cons]
    rcases List.mem_append.1 hmem with h1 | h2
    · exact List.mem_append_left _ (memLeaf_resetN stv c h1 hty)
    · exact List.mem_append_right _ (memLeaf_resetF stv _ h2 hty)
end

mutual
theorem memLeaf_resetTN : ∀ {m : MyNode} {stv : CState} {i : String} {c : Nat}
    {p : MyNode × Nat} {n : MyNode}, resetTargetN stv i c m = some p →
    n ∈ subtreeN m → n.ty = .file → n.children = [] → n ∈ subtreeN p.1
  | .mk ni nl nt cs nfp nst nctp, stv, i, c, p, n, hres, hmem, hty, hch => by
    rw [resetTargetN] at hres
    split at hres
    · rw [Option.some.injEq] at hres
      subst hres
      exact memLeaf_resetN stv c hmem hty
    · split at hres
      · next q heq =>
        rw [Option.some.injEq] at hres
        subst hres
        rw [subtreeN_eq] at hmem
        simp only [MyNode.children_mk] at hmem
        rcases List.mem_cons.1 hmem with he | hm
        · subst he
          simp only [MyNode.children_mk] at hch
          subst hch
          rw [resetTargetF] at heq
          exact Option.noConfusion heq
        · show n ∈ subtreeN (.mk ni nl nt q.1 nfp nst nctp)
          rw [subtreeN_eq]
          simp only [MyNode.children_mk]
          exact List.mem_cons_of_mem _ (memLeaf_resetTF heq hm hty hch)
      · exact Option.noConfusion hres

theorem memLeaf_resetTF : ∀ {l : List MyNode} {stv : CState} {i : String} {c : Nat}
    {q : List MyNode × Nat} {n : MyNode}, resetTargetF stv i c l = some q →
    n ∈ allNodesF l → n.ty = .file → n.children = [] → n ∈ allNodesF q.1
  | [], _, _, _, q, n, hres, _, _, _ => Option.noConfusion hres
  | m :: rest, stv, i, c, q, n, hres, hmem, hty, hch => by
    rw [resetTargetF] at hres
    rw [allNodesF_cons] at hmem
    split at hres
    · next pp heq =>
      rw [Option.some.injEq] at hres
      subst hres
      show n ∈ allNodesF (pp.1 :: rest)
      rw [allNodesF_cons]
      rcases List.mem_append.1 hmem with h1 | h2
      · exact List.mem_append_left _ (memLeaf_resetTN heq h1 hty hch)
      · exact List.mem_append_right _ h2
    · next heq =>
      rcases ho : resetTargetF stv i c rest with _ | qq
      · rw [ho] at hres
        exact Option.noConfusion hres
      · rw [ho] at hres
        simp only [Option.map_some', Option.some.injEq] at hres
        subst hres
        show n ∈ allNodesF (m :: qq.1)
        rw [allNodesF_cons]
        rcases List.mem_append.1 hmem with h1 | h2
        · exact List.mem_append_left _ h1
        · exact List.mem_append_right _ (memLeaf_resetTF ho h2 hty hch)
end

/-- **C7 (amended).** `collapseRecursive` and `expandRecursive` never run
the index builder: both derived indexes are exactly the ones of the last
rebuild.  File-path lookups survive the toggle: a path-index (or URI-map)
entry holding a childless file node still resolves to the same node, and
that node is still a node of the current forest.  The claim's further
assertion — that every previously resolvable lookup, including group-URI
lookups, is still correct for the current forest — is false, because the
toggle regenerates every touched group's id without rebuilding the maps
(see the counterexample). -/
theorem claim_C7 (node : Option MyNode) (st : SysState) :
    (collapseRecursive node st).pidx = st.pidx
    ∧ (collapseRecursive node st).uidx = st.uidx
    ∧ (expandRecursive node st).pidx = st.pidx
    ∧ (expandRecursive node st).uidx = st.uidx
    ∧ (∀ fp n, st.pidx fp = some n → n ∈ allNodesF st.data → n.ty = .file →
        n.children = [] →
        (collapseRecursive node st).pidx fp = some n
        ∧ n ∈ allNodesF (collapseRecursive node st).data)
    ∧ (∀ key n, st.uidx key = some n → n ∈ allNodesF st.data → n.ty = .file →
        n.children = [] →
        (expandRecursive node st).uidx key = some n
        ∧ n ∈ allNodesF (expandRecursive node st).data) := by
  refine ⟨rfl, rfl, rfl, rfl, ?_, ?_⟩
  · intro fp n hlook hmem hty hch
    refine ⟨hlook, ?_⟩
    cases node with
    | none =>
      show n ∈ allNodesF (sortNodesRecursive (resetForest .collapsed st.ctr st.data).1)
      exact memLeaf_sortF (memLeaf_resetF _ _ hmem hty) hty hch
    | some t =>
      show n ∈ allNodesF (sortNodesRecursive
        ((resetTargetF .collapsed t.id st.ctr st.data).getD (st.data, st.ctr)).1)
      rcases ho : resetTargetF .collapsed t.id st.ctr st.data with _ | q
      · exact memLeaf_sortF hmem hty hch
      · exact memLeaf_sortF (memLeaf_resetTF ho hmem hty hch) hty hch
  · intro key n hlook hmem hty hch
    refine ⟨hlook, ?_⟩
    cases node with
    | none =>
      show n ∈ allNodesF (sortNodesRecursive (resetForest .expanded st.ctr st.data).1)
      exact memLeaf_sortF (memLeaf_resetF _ _ hmem hty) hty hch
    | some t =>
      show n ∈ allNodesF (sortNodesRecursive
        ((resetTargetF .expanded t.id st.ctr st.data).getD (st.data, st.ctr)).1)
      rcases ho : resetTargetF .expanded t.id st.ctr st.data with _ | q
      · exact memLeaf_sortF hmem hty hch
      · exact memLeaf_sortF (memLeaf_resetTF ho hmem hty hch) hty hch

/-- Counterexample to C7 as stated: collapsing regenerates group ids
without rebuilding the maps, so a group-URI lookup that was resolvable
(and correct) before the toggle afterwards returns a node that is no
longer in the forest — the indexes are no longer correct for the current
forest. -/
theorem claim_C7_cex :
    ∃ (st : SysState) (key : String) (n : MyNode),
      st.uidx key = some n ∧ n ∈ allNodesF st.data
      ∧ (collapseRecursive none st).uidx key = some n
      ∧ ¬ n ∈ allNodesF (collapseRecursive none st).data := by
  refine ⟨saveState [.mk "gid" "docs" .group [] none (some .expanded) none] 5,
    "custom-explorer://group/gid",
    .mk "gid" "docs" .group [] none (some .expanded) (some "/docs"), ?_, ?_, ?_, ?_⟩
  · decide
  · decide
  · decide
  · decide

/-- Witness for C7 at a concrete input: a saved group holding one tracked
file; after a global collapse the file's path still resolves to the same
node and that node is still in the forest. -/
theorem claim_C7_witness :
    (collapseRecursive none (saveState [.mk "g" "docs" .group
        [.mk "f" "a.txt" .file [] (some "/w/a.txt") none none] none none none] 7)).pidx
        "/w/a.txt"
      = some (.mk "f" "a.txt" .file [] (some "/w/a.txt") none (some "/docs/a.txt"))
    ∧ (.mk "f" "a.txt" .file [] (some "/w/a.txt") none (some "/docs/a.txt") : MyNode)
        ∈ allNodesF (collapseRecursive none (saveState [.mk "g" "docs" .group
            [.mk "f" "a.txt" .file [] (some "/w/a.txt") none none] none none none] 7)).data := by
  have h := claim_C7 none (saveState [.mk "g" "docs" .group
      [.mk "f" "a.txt" .file [] (some "/w/a.txt") none none] none none none] 7)
  exact h.2.2.2.2.1 "/w/a.txt"
    (.mk "f" "a.txt" .file [] (some "/w/a.txt") none (some "/docs/a.txt"))
    (by decide) (by decide) (by decide) (by decide)

/-! ### Fresh-id supply algebra -/

theorem generateId_inj {j k : Nat} (h : generateId j = generateId k) : j = k := by
  have h3 := congrArg List.length (congrArg String.data h)
  simp only [generateId, List.length_replicate] at h3
  omega

theorem freshIds_self (a : Nat) : freshIds a a = 0 := by
  simp [freshIds]

theorem freshIds_succ (a : Nat) : freshIds a (a + 1) = {generateId a} := by
  simp [freshIds]

theorem freshIds_append {a b c : Nat} (hab : a ≤ b) (hbc : b ≤ c) :
    freshIds a b + freshIds b c = freshIds a c := by
  unfold freshIds
  rw [Multiset.coe_add, ← List.map_append]
  have h1 : a + 1 * (b - a) = b := by omega
  have h2 : (c - b) + (b - a) = c - a := by omega
  have h3 := List.range'_append a (b - a) (c - b) 1
  rw [h1, h2] at h3
  rw [h3]

theorem mem_freshIds {i : String} {a b : Nat} :
    i ∈ freshIds a b ↔ ∃ k, a ≤ k ∧ k < b ∧ i = generateId k := by
  unfold freshIds
  rw [Multiset.mem_coe, List.mem_map]
  constructor
  · rintro ⟨k, hk, rfl⟩
    rw [List.mem_range'_1] at hk
    exact ⟨k, hk.1, by omega, rfl⟩
  · rintro ⟨k, h1, h2, rfl⟩
    exact ⟨k, List.mem_range'_1.2 ⟨h1, by omega⟩, rfl⟩

theorem freshIds_nodup (a b : Nat) : (freshIds a b).Nodup := by
  unfold freshIds
  rw [Multiset.coe_nodup]
  exact List.Nodup.map (fun j k h => generateId_inj h) (List.nodup_range' a (b - a))

/-! ### Id-multiset helpers -/

theorem idsM_eq_of_flat {l l' : List MyNode} (h : flatM l = flatM l') :
    idsM l = idsM l' := by
  rw [← flatM_map_id, ← flatM_map_id, h]

theorem idsM_saveForest (d : List MyNode) : idsM (saveForest d) = idsM d :=
  idsM_eq_of_flat (flatM_saveForest d)

theorem idsM_sortF (l : List MyNode) : idsM (sortNodesRecursive l) = idsM l :=
  idsM_eq_of_flat (flatM_sortNodesRecursive l)

theorem idsM_append (l₁ l₂ : List MyNode) : idsM (l₁ ++ l₂) = idsM l₁ + idsM l₂ := by
  rw [← flatM_map_id, flatM_append, Multiset.map_add, flatM_map_id, flatM_map_id]

theorem idsM_cons (n : MyNode) (rest : List MyNode) :
    idsM (n :: rest) = subIdsM n + idsM rest := by
  rw [← flatM_map_id, flatM_cons, Multiset.map_add, flatM_map_id]
  rfl

theorem idsM_singleton (n : MyNode) : idsM [n] = subIdsM n := by
  rw [← flatM_map_id, flatM_singleton]
  rfl

theorem subIdsM_eq (n : MyNode) : subIdsM n = n.id ::ₘ idsM n.children := by
  rw [subIdsM, flatSubM_eq, Multiset.map_cons, flatM_map_id]
  rfl

theorem idsM_split_le {l : List MyNode} {m : MyNode} {C : Multiset FlatNode}
    (h : flatM l = C + flatSubM m) :
    idsM l = C.map FlatNode.id + subIdsM m := by
  rw [← flatM_map_id, h, Multiset.map_add]
  rfl

/-! ### Id preservation of the in-place node updates -/

theorem updateByIdF_ids {f : MyNode → MyNode}
    (hids : ∀ n, subIdsM (f n) = subIdsM n) {i : String} {l l' : List MyNode}
    (h : updateByIdF i f l = some l') : idsM l' = idsM l := by
  rcases updateByIdF_spec h with ⟨n₀, _, _, C, h1, h2⟩
  rw [idsM_split_le h1, idsM_split_le h2, hids]

theorem ids_setLabelFn (lab : String) (n : MyNode) :
    subIdsM (setLabelFn lab n) = subIdsM n := by
  cases n with
  | mk ni nl nt cs nfp nst nctp =>
    rw [setLabelFn, subIdsM_eq, subIdsM_eq]
    rfl

theorem ids_renameTarget (o np : String) (n : MyNode) :
    subIdsM (renameTarget o np n) = subIdsM n := by
  rw [subIdsM, flatSubM_renameTarget, subIdsM, flatSubM_eq]
  simp only [Multiset.map_cons, Multiset.map_map]
  have hfun : FlatNode.id ∘ flatRename o np = FlatNode.id := funext fun f => rfl
  rw [hfun]
  rfl

/-! ### Id bounds of the move/drop resolver -/

theorem moveOne_ids (t : Option MyNode) (acc : List MyNode × Bool) (s : MyNode) :
    idsM (moveOne t acc s).1 ≤ idsM acc.1 := by
  unfold moveOne
  by_cases hv : isValidMove s t = false
  · rw [if_pos hv]
  · rw [if_neg hv]
    rcases hr : removeRecursive s.id acc.1 with _ | ⟨m, l'⟩
    · exact le_refl _
    · have hsplit := (removeRecursive_spec hr).2.2.1
      have hacc : idsM acc.1 = subIdsM m + idsM l' := by
        rw [← flatM_map_id, hsplit, Multiset.map_add, flatM_map_id]
        rfl
      cases t with
      | none =>
        show idsM (l' ++ [m]) ≤ idsM acc.1
        refine le_of_eq ?_
        rw [idsM_append, idsM_singleton, hacc, add_comm (subIdsM m) (idsM l')]
      | some tn =>
        show idsM (if tn.ty = .group then ((attachTo true tn.id m l').getD l', true)
          else (l' ++ [m], true)).1 ≤ idsM acc.1
        by_cases hg : tn.ty = .group
        · rw [if_pos hg]
          rcases ho : attachTo true tn.id m l' with _ | l''
          · rw [hacc]
            exact self_le_add_left _ _
          · refine le_of_eq ?_
            show idsM l'' = idsM acc.1
            have h2 := attachTo_flatM ho
            rw [← flatM_map_id, h2, Multiset.map_add, flatM_map_id, hacc,
              add_comm (subIdsM m) (idsM l')]
            rfl
        · rw [if_neg hg]
          show idsM (l' ++ [m]) ≤ idsM acc.1
          refine le_of_eq ?_
          rw [idsM_append, idsM_singleton, hacc, add_comm (subIdsM m) (idsM l')]

theorem foldl_ids_le {α : Type} (step : List MyNode × Bool → α → List MyNode × Bool)
    (hstep : ∀ acc a, idsM (step acc a).1 ≤ idsM acc.1) :
    ∀ (xs : List α) (acc : List MyNode × Bool), idsM (xs.foldl step acc).1 ≤ idsM acc.1
  | [], acc => le_refl _
  | x :: xs, acc =>
    le_trans (foldl_ids_le step hstep xs (step acc x)) (hstep acc x)

/-! ### Id bounds of the import scan -/

theorem idsM_single (i l : String) (t : NodeType) (cs : List MyNode) (fp : Option String)
    (stv : Option CState) (ctp : Option String) :
    idsM [(.mk i l t cs fp stv ctp : MyNode)] = i ::ₘ idsM cs := by
  rw [idsM_singleton, subIdsM_eq]
  rfl

mutual
theorem scanEntry_ids : ∀ (e : FSEntry) (ex : List String) (cp : String) (c : Nat),
    c ≤ (scanEntry ex cp c e).2
    ∧ idsM (scanEntry ex cp c e).1 ≤ freshIds c (scanEntry ex cp c e).2
  | .file name, ex, cp, c => by
    rw [scanEntry]
    by_cases h1 : shouldExclude ex name
    · rw [if_pos h1]
      exact ⟨le_refl _, Multiset.zero_le _⟩
    · rw [if_neg h1]
      by_cases h2 : name = ".DS_Store"
      · rw [if_pos h2]
        exact ⟨le_refl _, Multiset.zero_le _⟩
      · rw [if_neg h2]
        refine ⟨Nat.le_succ c, le_of_eq ?_⟩
        rw [idsM_single, freshIds_succ]
        rfl
  | .dir name entries, ex, cp, c => by
    rw [scanEntry.eq_def]
    dsimp only
    by_cases h1 : shouldExclude ex name
    · rw [if_pos h1]
      exact ⟨le_refl _, Multiset.zero_le _⟩
    · rw [if_neg h1]
      have hrec := scanEntries_ids entries ex (cp ++ "/" ++ name) (c + 1)
      refine ⟨le_trans (Nat.le_succ c) hrec.1, ?_⟩
      rw [idsM_single, ← freshIds_append (Nat.le_succ c) hrec.1, freshIds_succ,
        Multiset.singleton_add]
      exact Multiset.cons_le_cons _ hrec.2

theorem scanEntries_ids : ∀ (es : List FSEntry) (ex : List String) (cp : String) (c : Nat),
    c ≤ (scanEntries ex cp c es).2
    ∧ idsM (scanEntries ex cp c es).1 ≤ freshIds c (scanEntries ex cp c es).2
  | [], ex, cp, c => ⟨le_refl _, Multiset.zero_le _⟩
  | e :: rest, ex, cp, c => by
    have h1 := scanEntry_ids e ex cp c
    have h2 := scanEntries_ids rest ex cp (scanEntry ex cp c e).2
    show (scanEntries ex cp c (e :: rest)).2 ≥ c
      ∧ idsM ((scanEntry ex cp c e).1 ++ (scanEntries ex cp (scanEntry ex cp c e).2 rest).1)
        ≤ freshIds c (scanEntries ex cp (scanEntry ex cp c e).2 rest).2
    refine ⟨le_trans h1.1 h2.1, ?_⟩
    rw [idsM_append, ← freshIds_append h1.1 h2.1]
    exact add_le_add h1.2 h2.2
end

/-! ### Id bounds of the expand/collapse reset -/

mutual
theorem resetN_ids : ∀ (m : MyNode) (stv : CState) (c : Nat),
    c ≤ (resetNodeState stv c m).2
    ∧ subIdsM (resetNodeState stv c m).1
        ≤ subIdsM m + freshIds c (resetNodeState stv c m).2
  | .mk ni nl nt cs nfp nst nctp, stv, c => by
    cases nt with
    | file =>
      refine ⟨le_refl _, le_of_eq ?_⟩
      show subIdsM (.mk ni nl .file cs nfp nst nctp)
        = subIdsM (.mk ni nl .file cs nfp nst nctp) + freshIds c c
      rw [freshIds_self, add_zero]
    | group =>
      have hrec := resetF_ids cs stv (c + 1)
      refine ⟨le_trans (Nat.le_succ c) hrec.1, ?_⟩
      show subIdsM (.mk (generateId c) nl .group (resetForest stv (c + 1) cs).1 nfp
          (some stv) nctp)
        ≤ subIdsM (.mk ni nl .group cs nfp nst nctp)
          + freshIds c (resetForest stv (c + 1) cs).2
      rw [subIdsM_eq, subIdsM_eq]
      simp only [MyNode.children_mk, MyNode.id_mk]
      have heq : (ni ::ₘ idsM cs) + freshIds c (resetForest stv (c + 1) cs).2
          = ni ::ₘ (generateId c ::ₘ (idsM cs + freshIds (c + 1) (resetForest stv (c + 1) cs).2)) := by
        rw [← freshIds_append (Nat.le_succ c) hrec.1, freshIds_succ,
          ← Multiset.singleton_add, ← Multiset.singleton_add, ← Multiset.singleton_add]
        abel
      rw [heq]
      refine le_trans (Multiset.cons_le_cons _ hrec.2) ?_
      exact Multiset.le_cons_self _ _

theorem resetF_ids : ∀ (l : List MyNode) (stv : CState) (c : Nat),
    c ≤ (resetForest stv c l).2
    ∧ idsM (resetForest stv c l).1 ≤ idsM l + freshIds c (resetForest stv c l).2
  | [], stv, c => ⟨le_refl _, Multiset.zero_le _⟩
  | m :: rest, stv, c => by
    have h1 := resetN_ids m stv c
    have h2 := resetF_ids rest stv (resetNodeState stv c m).2
    refine ⟨le_trans h1.1 h2.1, ?_⟩
    show idsM ((resetNodeState stv c m).1
        :: (resetForest stv (resetNodeState stv c m).2 rest).1)
      ≤ idsM (m :: rest)
        + freshIds c (resetForest stv (resetNodeState stv c m).2 rest).2
    rw [idsM_cons, idsM_cons, ← freshIds_append h1.1 h2.1]
    have := add_le_add h1.2 h2.2
    refine le_trans this (le_of_eq ?_)
    abel
end

mutual
theorem resetTN_ids : ∀ {m : MyNode} {stv : CState} {i : String} {c : Nat}
    {p : MyNode × Nat}, resetTargetN stv i c m = some p →
    c ≤ p.2 ∧ subIdsM p.1 ≤ subIdsM m + freshIds c p.2
  | .mk ni nl nt cs nfp nst nctp, stv, i, c, p, hres => by
    rw [resetTargetN] at hres
    split at hres
    · rw [Option.some.injEq] at hres
      subst hres
      exact resetN_ids _ stv c
    · split at hres
      · next q heq =>
        rw [Option.some.injEq] at hres
        subst hres
        have hrec := resetTF_ids heq
        refine ⟨hrec.1, ?_⟩
        show subIdsM (.mk ni nl nt q.1 nfp nst nctp)
          ≤ subIdsM (.mk ni nl nt cs nfp nst nctp) + freshIds c q.2
        rw [subIdsM_eq, subIdsM_eq]
        simp only [MyNode.children_mk, MyNode.id_mk]
        have heq2 : (ni ::ₘ idsM cs) + freshIds c q.2
            = ni ::ₘ (idsM cs + freshIds c q.2) := by
          rw [← Multiset.singleton_add, ← Multiset.singleton_add]
          abel
        rw [heq2]
        exact Multiset.cons_le_cons _ hrec.2
      · exact Option.noConfusion hres

theorem resetTF_ids : ∀ {l : List MyNode} {stv : CState} {i : String} {c : Nat}
    {q : List MyNode × Nat}, resetTargetF stv i c l = some q →
    c ≤ q.2 ∧ idsM q.1 ≤ idsM l + freshIds c q.2
  | [], _, _, _, q, hres => Option.noConfusion hres
  | m :: rest, stv, i, c, q, hres => by
    rw [resetTargetF] at hres
    split at hres
    · next pp heq =>
      rw [Option.some.injEq] at hres
      subst hres
      have hrec := resetTN_ids heq
      refine ⟨hrec.1, ?_⟩
      show idsM (pp.1 :: rest) ≤ idsM (m :: rest) + freshIds c pp.2
      rw [idsM_cons, idsM_cons]
      have heq2 : (subIdsM m + idsM rest) + freshIds c pp.2
          = (subIdsM m + freshIds c pp.2) + idsM rest := by abel
      rw [heq2]
      exact add_le_add hrec.2 (le_refl _)
    · next heq =>
      rcases ho : resetTargetF stv i c rest with _ | qq
      · rw [ho] at hres
        exact Option.noConfusion hres
      · rw [ho] at hres
        simp only [Option.map_some', Option.some.injEq] at hres
        subst hres
        have hrec := resetTF_ids ho
        refine ⟨hrec.1, ?_⟩
        show idsM (m :: qq.1) ≤ idsM (m :: rest) + freshIds c qq.2
        rw [idsM_cons, idsM_cons, add_assoc]
        exact add_le_add (le_refl _) hrec.2
end

/-! ### Per-operation id bounds -/

theorem saveState_ids_le {data d : List MyNode} {c c' : Nat}
    (hc : c ≤ c') (hd : idsM d ≤ idsM data + freshIds c c') :
    c ≤ (saveState d c').ctr
    ∧ idsM (saveState d c').data ≤ idsM data + freshIds c (saveState d c').ctr := by
  refine ⟨hc, ?_⟩
  rw [saveState_data, idsM_saveForest]
  exact hd

theorem deferredSave_ids_le (r : List MyNode × Bool) (st : SysState)
    (hr : idsM r.1 ≤ idsM st.data) :
    st.ctr ≤ (if r.2 then saveState r.1 st.ctr else { st with data := r.1 }).ctr
    ∧ idsM (if r.2 then saveState r.1 st.ctr else { st with data := r.1 }).data
      ≤ idsM st.data + freshIds st.ctr
          (if r.2 then saveState r.1 st.ctr else { st with data := r.1 }).ctr := by
  by_cases hb : r.2 = true
  · rw [if_pos hb]
    exact saveState_ids_le (le_refl _) (le_trans hr (Multiset.le_add_right _ _))
  · rw [if_neg hb]
    exact ⟨le_refl _, le_trans hr (Multiset.le_add_right _ _)⟩

theorem applyOp_ids_le (op : Op) (st : SysState) :
    st.ctr ≤ (applyOp op st).ctr
    ∧ idsM (applyOp op st).data ≤ idsM st.data + freshIds st.ctr (applyOp op st).ctr := by
  cases op with
  | opAddGroup label parent =>
    show st.ctr ≤ (addGroup label parent st).ctr
      ∧ idsM (addGroup label parent st).data
        ≤ idsM st.data + freshIds st.ctr (addGroup label parent st).ctr
    cases parent with
    | none =>
      have hd : addGroup label none st
          = saveState (st.data
              ++ [.mk (generateId st.ctr) label .group [] none (some .expanded) none])
              (st.ctr + 1) := by
        simp only [addGroup]
      rw [hd]
      refine saveState_ids_le (Nat.le_succ _) (le_of_eq ?_)
      rw [idsM_append, idsM_single, freshIds_succ]
      rfl
    | some par =>
      by_cases hg : par.ty = .group
      · rcases ho : attachTo true par.id
            (.mk (generateId st.ctr) label .group [] none (some .expanded) none) st.data
            with _ | l'
        · have hd : addGroup label (some par) st = saveState st.data (st.ctr + 1) := by
            simp only [addGroup]
            rw [if_pos hg, ho]
            rfl
          rw [hd]
          exact saveState_ids_le (Nat.le_succ _) (Multiset.le_add_right _ _)
        · have hd : addGroup label (some par) st = saveState l' (st.ctr + 1) := by
            simp only [addGroup]
            rw [if_pos hg, ho]
            rfl
          rw [hd]
          refine saveState_ids_le (Nat.le_succ _) (le_of_eq ?_)
          rw [← flatM_map_id, attachTo_flatM ho, Multiset.map_add, flatM_map_id,
            freshIds_succ]
          rfl
      · have hd : addGroup label (some par) st
            = saveState (st.data
                ++ [.mk (generateId st.ctr) label .group [] none (some .expanded) none])
                (st.ctr + 1) := by
          simp only [addGroup]
          rw [if_neg hg]
        rw [hd]
        refine saveState_ids_le (Nat.le_succ _) (le_of_eq ?_)
        rw [idsM_append, idsM_single, freshIds_succ]
        rfl
  | opAddFile ex path parent =>
    show st.ctr ≤ (addFile ex path parent st).ctr
      ∧ idsM (addFile ex path parent st).data
        ≤ idsM st.data + freshIds st.ctr (addFile ex path parent st).ctr
    by_cases hex : shouldExclude ex (basename path) = true
    · have hd : addFile ex path parent st = st := by
        simp only [addFile]
        rw [if_pos hex]
      rw [hd]
      exact ⟨le_refl _, Multiset.le_add_right _ _⟩
    · cases parent with
      | none =>
        have hd : addFile ex path none st
            = saveState (st.data
                ++ [.mk (generateId st.ctr) (basename path) .file [] (some path) none none])
                (st.ctr + 1) := by
          simp only [addFile]
          rw [if_neg hex]
        rw [hd]
        refine saveState_ids_le (Nat.le_succ _) (le_of_eq ?_)
        rw [idsM_append, idsM_single, freshIds_succ]
        rfl
      | some par =>
        by_cases hg : par.ty = .group
        · rcases ho : attachTo true par.id
              (.mk (generateId st.ctr) (basename path) .file [] (some path) none none) st.data
              with _ | l'
          · have hd : addFile ex path (some par) st = saveState st.data (st.ctr + 1) := by
              simp only [addFile]
              rw [if_neg hex, if_pos hg, ho]
              rfl
            rw [hd]
            exact saveState_ids_le (Nat.le_succ _) (Multiset.le_add_right _ _)
          · have hd : addFile ex path (some par) st = saveState l' (st.ctr + 1) := by
              simp only [addFile]
              rw [if_neg hex, if_pos hg, ho]
              rfl
            rw [hd]
            refine saveState_ids_le (Nat.le_succ _) (le_of_eq ?_)
            rw [← flatM_map_id, attachTo_flatM ho, Multiset.map_add, flatM_map_id,
              freshIds_succ]
            rfl
        · have hd : addFile ex path (some par) st
              = saveState (st.data
                  ++ [.mk (generateId st.ctr) (basename path) .file [] (some path) none none])
                  (st.ctr + 1) := by
            simp only [addFile]
            rw [if_neg hex, if_neg hg]
          rw [hd]
          refine saveState_ids_le (Nat.le_succ _) (le_of_eq ?_)
          rw [idsM_append, idsM_single, freshIds_succ]
          rfl
  | opRenameNode node newName =>
    show st.ctr ≤ (renameNode node newName st).ctr
      ∧ idsM (renameNode node newName st).data
        ≤ idsM st.data + freshIds st.ctr (renameNode node newName st).ctr
    rcases ho : updateByIdF node.id (setLabelFn newName) st.data with _ | l'
    · have hd : renameNode node newName st = saveState st.data st.ctr := by
        simp only [renameNode]
        rw [ho]
        rfl
      rw [hd]
      exact saveState_ids_le (le_refl _) (Multiset.le_add_right _ _)
    · have hd : renameNode node newName st = saveState l' st.ctr := by
        simp only [renameNode]
        rw [ho]
        rfl
      rw [hd]
      exact saveState_ids_le (le_refl _)
        (le_trans (le_of_eq (updateByIdF_ids (ids_setLabelFn newName) ho))
          (Multiset.le_add_right _ _))
  | opRemoveNode node =>
    show st.ctr ≤ (removeNode node st).ctr
      ∧ idsM (removeNode node st).data
        ≤ idsM st.data + freshIds st.ctr (removeNode node st).ctr
    rcases hr : removeRecursive node.id st.data with _ | ⟨m, l'⟩
    · have hd : removeNode node st = st := by
        simp only [removeNode]
        rw [hr]
      rw [hd]
      exact ⟨le_refl _, Multiset.le_add_right _ _⟩
    · have hd : removeNode node st = saveState l' st.ctr := by
        simp only [removeNode]
        rw [hr]
      rw [hd]
      have hsplit := (removeRecursive_spec hr).2.2.1
      have hacc : idsM st.data = subIdsM m + idsM l' := by
        rw [← flatM_map_id, hsplit, Multiset.map_add, flatM_map_id]
        rfl
      refine saveState_ids_le (le_refl _) (le_trans ?_ (Multiset.le_add_right _ _))
      rw [hacc]
      exact self_le_add_left _ _
  | opMoveNodes sources target =>
    show st.ctr ≤ (moveNodesOp sources target st).ctr
      ∧ idsM (moveNodesOp sources target st).data
        ≤ idsM st.data + freshIds st.ctr (moveNodesOp sources target st).ctr
    exact deferredSave_ids_le (moveNodes sources target st.data) st
      (foldl_ids_le (moveOne target) (fun acc s => moveOne_ids target acc s) sources
        (st.data, false))
  | opImportDirectory ex dirPath entries parent =>
    show st.ctr ≤ (importDirectory ex dirPath entries parent st).ctr
      ∧ idsM (importDirectory ex dirPath entries parent st).data
        ≤ idsM st.data + freshIds st.ctr (importDirectory ex dirPath entries parent st).ctr
    by_cases hex : shouldExclude ex (basename dirPath) = true
    · have hd : importDirectory ex dirPath entries parent st = st := by
        simp only [importDirectory]
        rw [if_pos hex]
      rw [hd]
      exact ⟨le_refl _, Multiset.le_add_right _ _⟩
    · have hscan := scanEntries_ids entries ex dirPath (st.ctr + 1)
      have hc : st.ctr ≤ (scanEntries ex dirPath (st.ctr + 1) entries).2 :=
        le_trans (Nat.le_succ _) hscan.1
      have hng : idsM [(.mk (generateId st.ctr) (basename dirPath) .group
            (scanEntries ex dirPath (st.ctr + 1) entries).1 (some dirPath)
            (some .expanded) none : MyNode)]
          ≤ freshIds st.ctr (scanEntries ex dirPath (st.ctr + 1) entries).2 := by
        rw [idsM_single, ← freshIds_append (Nat.le_succ st.ctr) hscan.1, freshIds_succ,
          Multiset.singleton_add]
        exact Multiset.cons_le_cons _ hscan.2
      cases parent with
      | none =>
        have hd : importDirectory ex dirPath entries none st
            = saveState (st.data
                ++ [.mk (generateId st.ctr) (basename dirPath) .group
                  (scanEntries ex dirPath (st.ctr + 1) entries).1 (some dirPath)
                  (some .expanded) none])
                (scanEntries ex dirPath (st.ctr + 1) entries).2 := by
          simp only [importDirectory]
          rw [if_neg hex]
        rw [hd]
        refine saveState_ids_le hc ?_
        rw [idsM_append]
        exact add_le_add (le_refl _) hng
      | some par =>
        by_cases hg : par.ty = .group
        · rcases ho : attachTo false par.id
              (.mk (generateId st.ctr) (basename dirPath) .group
                (scanEntries ex dirPath (st.ctr + 1) entries).1 (some dirPath)
                (some .expanded) none) st.data with _ | l'
          · have hd : importDirectory ex dirPath entries (some par) st
                = saveState st.data (scanEntries ex dirPath (st.ctr + 1) entries).2 := by
              simp only [importDirectory]
              rw [if_neg hex, if_pos hg, ho]
              rfl
            rw [hd]
            exact saveState_ids_le hc (Multiset.le_add_right _ _)
          · have hd : importDirectory ex dirPath entries (some par) st
                = saveState l' (scanEntries ex dirPath (st.ctr + 1) entries).2 := by
              simp only [importDirectory]
              rw [if_neg hex, if_pos hg, ho]
              rfl
            rw [hd]
            refine saveState_ids_le hc ?_
            have heq : idsM l' = idsM st.data
                + idsM [(.mk (generateId st.ctr) (basename dirPath) .group
                  (scanEntries ex dirPath (st.ctr + 1) entries).1 (some dirPath)
                  (some .expanded) none : MyNode)] := by
              rw [← flatM_map_id, attachTo_flatM ho, Multiset.map_add, flatM_map_id,
                idsM_singleton]
              rfl
            rw [heq]
            exact add_le_add (le_refl _) hng
        · have hd : importDirectory ex dirPath entries (some par) st
              = saveState (st.data
                  ++ [.mk (generateId st.ctr) (basename dirPath) .group
                    (scanEntries ex dirPath (st.ctr + 1) entries).1 (some dirPath)
                    (some .expanded) none])
                  (scanEntries ex dirPath (st.ctr + 1) entries).2 := by
            simp only [importDirectory]
            rw [if_neg hex, if_neg hg]
          rw [hd]
          refine saveState_ids_le hc ?_
          rw [idsM_append]
          exact add_le_add (le_refl _) hng
  | opHandleFileRename files =>
    show st.ctr ≤ (handleFileRename files st).ctr
      ∧ idsM (handleFileRename files st).data
        ≤ idsM st.data + freshIds st.ctr (handleFileRename files st).ctr
    refine deferredSave_ids_le _ st ?_
    refine foldl_ids_le _ ?_ files (st.data, false)
    intro acc f
    rcases hp : st.pidx f.1 with _ | tn
    · exact le_of_eq rfl
    · dsimp only
      rcases ho : updateByIdF tn.id (renameTarget f.1 f.2) acc.1 with _ | l'
      · exact le_of_eq rfl
      · exact le_of_eq (updateByIdF_ids (ids_renameTarget f.1 f.2) ho)
  | opHandleFileDelete paths =>
    show st.ctr ≤ (handleFileDelete paths st).ctr
      ∧ idsM (handleFileDelete paths st).data
        ≤ idsM st.data + freshIds st.ctr (handleFileDelete paths st).ctr
    refine deferredSave_ids_le _ st ?_
    refine foldl_ids_le _ ?_ paths (st.data, false)
    intro acc p
    rcases hp : st.pidx p with _ | n
    · exact le_of_eq rfl
    · dsimp only
      rcases hr : removeRecursive n.id acc.1 with _ | ⟨m, l'⟩
      · exact le_of_eq rfl
      · have hsplit := (removeRecursive_spec hr).2.2.1
        have hacc : idsM acc.1 = subIdsM m + idsM l' := by
          rw [← flatM_map_id, hsplit, Multiset.map_add, flatM_map_id]
          rfl
        show idsM l' ≤ idsM acc.1
        rw [hacc]
        exact self_le_add_left _ _
  | opCollapseRecursive node =>
    show st.ctr ≤ (collapseRecursive node st).ctr
      ∧ idsM (collapseRecursive node st).data
        ≤ idsM st.data + freshIds st.ctr (collapseRecursive node st).ctr
    cases node with
    | none =>
      show st.ctr ≤ (resetForest .collapsed st.ctr st.data).2
        ∧ idsM (sortNodesRecursive (resetForest .collapsed st.ctr st.data).1)
          ≤ idsM st.data + freshIds st.ctr (resetForest .collapsed st.ctr st.data).2
      have h := resetF_ids st.data .collapsed st.ctr
      refine ⟨h.1, ?_⟩
      rw [idsM_sortF]
      exact h.2
    | some t =>
      show st.ctr ≤ ((resetTargetF .collapsed t.id st.ctr st.data).getD (st.data, st.ctr)).2
        ∧ idsM (sortNodesRecursive
            ((resetTargetF .collapsed t.id st.ctr st.data).getD (st.data, st.ctr)).1)
          ≤ idsM st.data + freshIds st.ctr
              ((resetTargetF .collapsed t.id st.ctr st.data).getD (st.data, st.ctr)).2
      rcases ho : resetTargetF .collapsed t.id st.ctr st.data with _ | q
      · refine ⟨le_refl _, ?_⟩
        rw [idsM_sortF]
        exact Multiset.le_add_right _ _
      · have h := resetTF_ids ho
        refine ⟨h.1, ?_⟩
        rw [idsM_sortF]
        exact h.2
  | opExpandRecursive node =>
    show st.ctr ≤ (expandRecursive node st).ctr
      ∧ idsM (expandRecursive node st).data
        ≤ idsM st.data + freshIds st.ctr (expandRecursive node st).ctr
    cases node with
    | none =>
      show st.ctr ≤ (resetForest .expanded st.ctr st.data).2
        ∧ idsM (sortNodesRecursive (resetForest .expanded st.ctr st.data).1)
          ≤ idsM st.data + freshIds st.ctr (resetForest .expanded st.ctr st.data).2
      have h := resetF_ids st.data .expanded st.ctr
      refine ⟨h.1, ?_⟩
      rw [idsM_sortF]
      exact h.2
    | some t =>
      show st.ctr ≤ ((resetTargetF .expanded t.id st.ctr st.data).getD (st.data, st.ctr)).2
        ∧ idsM (sortNodesRecursive
            ((resetTargetF .expanded t.id st.ctr st.data).getD (st.data, st.ctr)).1)
          ≤ idsM st.data + freshIds st.ctr
              ((resetTargetF .expanded t.id st.ctr st.data).getD (st.data, st.ctr)).2
      rcases ho : resetTargetF .expanded t.id st.ctr st.data with _ | q
      · refine ⟨le_refl _, ?_⟩
        rw [idsM_sortF]
        exact Multiset.le_add_right _ _
      · have h := resetTF_ids ho
        refine ⟨h.1, ?_⟩
        rw [idsM_sortF]
        exact h.2

/-- **C6.** Id uniqueness is an invariant of every operation of the
provider: if the ids of the forest are pairwise distinct and all of them
were handed out by the fresh-id supply below the current counter — as
holds from the empty initial state on — then the same is true after any
add, rename, remove, move, import, file-event reconciliation or
expand/collapse toggle.  New ids only enter through the supply at or
above the old counter, so they collide neither with the old ids nor with
each other. -/
theorem claim_C6 (op : Op) (st : SysState) (h : IdInv st) : IdInv (applyOp op st) := by
  obtain ⟨hnd, hbound⟩ := h
  obtain ⟨hc, hle⟩ := applyOp_ids_le op st
  have hndM : (idsM st.data).Nodup := Multiset.coe_nodup.2 hnd
  have hfreshnd := freshIds_nodup st.ctr (applyOp op st).ctr
  have hdisj : Disjoint (idsM st.data) (freshIds st.ctr (applyOp op st).ctr) := by
    rw [Multiset.disjoint_left]
    intro a ha hfa
    rcases hbound a (Multiset.mem_coe.1 ha) with ⟨k, hk, rfl⟩
    rcases mem_freshIds.1 hfa with ⟨j, h1, h2, he⟩
    have hkj : k = j := generateId_inj he
    rw [List.mem_range] at hk
    omega
  have hRnd : (idsM st.data + freshIds st.ctr (applyOp op st).ctr).Nodup :=
    Multiset.nodup_add.2 ⟨hndM, hfreshnd, hdisj⟩
  constructor
  · exact Multiset.coe_nodup.1 (Multiset.nodup_of_le hle hRnd)
  · intro i hi
    have hiM : i ∈ idsM (applyOp op st).data := Multiset.mem_coe.2 hi
    rcases Multiset.mem_add.1 (Multiset.mem_of_le hle hiM) with h1 | h2
    · rcases hbound i (Multiset.mem_coe.1 h1) with ⟨k, hk, he⟩
      rw [List.mem_range] at hk
      exact ⟨k, List.mem_range.2 (lt_of_lt_of_le hk hc), he⟩
    · rcases mem_freshIds.1 h2 with ⟨k, _, h4, he⟩
      exact ⟨k, List.mem_range.2 h4, he⟩

/-- Witness for C6 at a concrete input: a saved singleton-group forest
satisfies the invariant, and adding a group under the root preserves
it. -/
theorem claim_C6_witness :
    IdInv (applyOp (.opAddGroup "sub" none)
      (saveState [.mk (generateId 0) "docs" .group [] none (some .expanded) none] 1)) :=
  claim_C6 (.opAddGroup "sub" none)
    (saveState [.mk (generateId 0) "docs" .group [] none (some .expanded) none] 1)
    ⟨by decide, by decide⟩
